import Mathlib

/-!
# Verification of the killerbunny JSONPath engine (RFC 9535) against its specification

This file is a shallow embedding, in Lean 4, of the parts of the
`killerbunny` Python source that the frozen claims C1..C10 speak about:

* the JSON value model (`killerbunny/shared/json_type_defs.py`),
* the comparison operators (`killerbunny/evaluating/compare_ops.py`),
* the selector/segment evaluator (`killerbunny/evaluating/evaluator.py`),
* the `match()`/`search()` function extensions (`killerbunny/parsing/function.py`),
* numeric-bound validation in the parser (`killerbunny/parsing/parser.py`,
  `killerbunny/parsing/selector_nodes.py`),
* the lexer (`killerbunny/lexing/lexer.py`, `killerbunny/shared/jpath_bnf.py`),
* normalized-path construction (`killerbunny/evaluating/evaluator_types.py`,
  `killerbunny/parsing/helper.py`).

Python values are object graphs with identity; most claims only concern
tree-shaped (acyclic, unaliased) values, which are embedded as the inductive
`JValue`.  Claim C1 is about cyclic data, so for it the descendant traversal
is embedded over an explicit heap (`HStore`): values are references (`Nat`,
playing the role of CPython `id()`) into a store.

Python numbers (`int`/`float`, and `bool`, which is an `int` subclass and
therefore enters every `isinstance(x, (int, float))` branch of the source)
are embedded as `ℚ`: every JSON-representable Python number is a rational,
and Python compares `int`/`float`/`bool` by exact numeric value.
-/

namespace KillerBunny

/-! ## JSON value model (tree-shaped values)

`json_type_defs.py`: a JSON value is `None | bool | int | float | str |
list | dict`.  Object member order is kept (Python dicts are ordered). -/

inductive JValue : Type where
  | null
  | bool (b : Bool)
  | num (q : ℚ)
  | str (s : String)
  | arr (elems : List JValue)
  | obj (members : List (String × JValue))
deriving Repr

/-- `ValueType` from `function.py`: a raw JSON value or the `Nothing`
singleton (`NothingType`), which represents the absence of a value. -/
inductive RawVal : Type where
  | json (v : JValue)
  | nothing
deriving Repr

/-! ## Comparison operators (`compare_ops.py`)

`ComparisonOperatorType._eval_eq` / `_eval_lt` / `eval`, for tree-shaped
values.  Notes on fidelity:

* Python `bool` is a subclass of `int`, so `isinstance(x, (int, float))` is
  true for booleans and `True == 1` holds; `numView` reflects this by
  mapping `bool` to `0`/`1` exactly as Python's numeric comparison does.
* the `type(left_raw) != type(right_raw)` check in `_eval_eq` is only
  reached when at most one side is numeric/boolean (both-numeric pairs were
  consumed by the number branch), so a coarse tag suffices for it.
* `_eval_eq` threads a visited-id table for cycle detection
  (`_cycle_detected`); for tree-shaped values every container is a distinct
  Python object reached exactly once, so that check never fires and is not
  part of this embedding.  The `max_depth` cut-off (default 32) *is* part
  of the result and is embedded.
-/

/-- `ComparisonOperatorType._depth_exceeded`: true iff `depth >= max_depth`. -/
def depthExceeded (depth maxDepth : Nat) : Bool := decide (maxDepth ≤ depth)

/-- The numeric view a Python `isinstance(x, (int, float))` branch sees:
numbers are themselves, booleans are 0/1, everything else is non-numeric. -/
def numView : JValue → Option ℚ
  | .num q => some q
  | .bool b => some (if b then 1 else 0)
  | _ => none

/-- Coarse analogue of Python `type(x)` as used by the
`type(left_raw) != type(right_raw)` check of `_eval_eq` (only reached for
non-numeric operands). -/
def typeTag : JValue → Nat
  | .null => 0
  | .bool _ => 1
  | .num _ => 2
  | .str _ => 3
  | .arr _ => 4
  | .obj _ => 5

/-- Member names of an object, in insertion order (`dict.keys()`). -/
def keysOf (members : List (String × JValue)) : List String := members.map Prod.fst

/-- `set(left.keys()) == set(right.keys())` from the object branch of
`_eval_eq`. -/
def keySetEq (a b : List (String × JValue)) : Bool :=
  (keysOf a).all (fun k => (keysOf b).contains k) &&
  (keysOf b).all (fun k => (keysOf a).contains k)

mutual
/-- `ComparisonOperatorType._eval_eq` on unwrapped JSON values (the
`Nothing` cases live one level up, in `evalEqRaw`). -/
def evalEqVal (maxDepth : Nat) : JValue → JValue → Nat → Bool
  | l, r, depth =>
    match numView l, numView r with
    | some ql, some qr => decide (ql = qr)
    | _, _ =>
      if typeTag l ≠ typeTag r then false
      else
        match l, r with
        | .null, .null => true
        | .str a, .str b => a == b
        | .arr a, .arr b =>
          if a.length ≠ b.length then false
          else if depthExceeded depth maxDepth then false
          else evalEqElems maxDepth a b (depth + 1)
        | .obj a, .obj b =>
          if a.length ≠ b.length then false
          else if ¬ keySetEq a b then false
          else if depthExceeded depth maxDepth then false
          else evalEqMembers maxDepth a b (depth + 1)
        | _, _ => false
termination_by l _ _ => sizeOf l

/-- The array branch loop of `_eval_eq`: element-wise recursion (lengths
were checked equal before the loop). -/
def evalEqElems (maxDepth : Nat) : List JValue → List JValue → Nat → Bool
  | [], [], _ => true
  | l :: ls, r :: rs, depth =>
    evalEqVal maxDepth l r depth && evalEqElems maxDepth ls rs depth
  | _, _, _ => false
termination_by a _ _ => sizeOf a

/-- The object branch loop of `_eval_eq`: iterate left members in insertion
order, looking the key up on the right (present, by the key-set check). -/
def evalEqMembers (maxDepth : Nat) : List (String × JValue) → List (String × JValue) → Nat → Bool
  | [], _, _ => true
  | (k, v) :: ls, r, depth =>
    (match r.lookup k with
     | some rv => evalEqVal maxDepth v rv depth
     | none => false) &&
    evalEqMembers maxDepth ls r depth
termination_by a _ _ => sizeOf a
end

/-- `ComparisonOperatorType._eval_lt` on unwrapped JSON values. -/
def evalLtVal : JValue → JValue → Bool
  | l, r =>
    match numView l, numView r with
    | some ql, some qr => decide (ql < qr)
    | _, _ =>
      match l, r with
      | .str a, .str b => decide (a < b)
      | _, _ => false

/-- `_eval_eq` including its leading `NothingType` cases, at the default
`cur_depth = 0`, `max_depth = 32` of a top-level call. -/
def evalEqRaw : RawVal → RawVal → Bool
  | .nothing, .nothing => true
  | .nothing, .json _ => false
  | .json _, .nothing => false
  | .json a, .json b => evalEqVal 32 a b 0

/-- `_eval_lt` including its leading `NothingType` cases. -/
def evalLtRaw : RawVal → RawVal → Bool
  | .nothing, _ => false
  | .json _, .nothing => false
  | .json a, .json b => evalLtVal a b

/-- The six comparison operators of `ComparisonOperatorType`. -/
inductive CompOp : Type where
  | eq | ne | lt | lte | gt | gte
deriving Repr, DecidableEq

/-- `ComparisonOperatorType.eval`'s `match self` dispatch (the returned
`BooleanValue` wrapper carries exactly this boolean). -/
def compareEval : CompOp → RawVal → RawVal → Bool
  | .eq, a, b => evalEqRaw a b
  | .ne, a, b => ! evalEqRaw a b
  | .lt, a, b => evalLtRaw a b
  | .lte, a, b => if evalLtRaw a b then true else evalEqRaw a b
  | .gt, a, b => evalLtRaw b a
  | .gte, a, b => if evalLtRaw b a then true else evalEqRaw a b

/-- C2.  For every pair of comparable operands `a, b` (unwrapped values
including `Nothing`): `(a == b) ⇔ ¬(a != b)`; `(a <= b) ⇔ (a < b) ∨ (a == b)`;
`(a > b) ⇔ (b < a)`; `Nothing == Nothing` is true; and `Nothing == x` is
false for every JSON value `x`. -/
theorem comparison_laws : ∀ a b : RawVal,
    (compareEval .eq a b = true ↔ ¬ (compareEval .ne a b = true)) ∧
    (compareEval .lte a b = true ↔ (compareEval .lt a b = true ∨ compareEval .eq a b = true)) ∧
    (compareEval .gt a b = true ↔ compareEval .lt b a = true) ∧
    compareEval .eq RawVal.nothing RawVal.nothing = true ∧
    (∀ x : JValue, compareEval .eq RawVal.nothing (RawVal.json x) = false) := by
  intro a b
  refine ⟨?_, ?_, Iff.rfl, rfl, fun _ => rfl⟩
  · cases h : evalEqRaw a b <;> simp [compareEval, h]
  · cases h : evalLtRaw a b <;> simp [compareEval, h]

/-! ## Evaluator over tree-shaped values (`evaluator.py`)

`VNode` (`value_nodes.py`) carries a normalized path, the referenced value
and the node depth.  The `root_value` back-reference of the Python class is
a handle into the caller's object graph and plays no role in any claim, so
it is not part of the embedding.

Paths are built exactly as the evaluator builds them:
`f"{jpath}['{name}']"` and `f"{jpath}[{index}]"`.  (The `NormalizedJPath`
wrapper validates these strings; its validation is embedded separately for
C9 and is the identity on every path built from plain member names, which
is the case in all concrete scenarios below.) -/

structure VNode where
  path   : String
  jvalue : JValue
  depth  : Nat
deriving Repr

/-- `f"{jpath}['{name}']"`. -/
def mkNamePath (p name : String) : String := p ++ "['" ++ name ++ "']"

/-- `f"{jpath}[{index}]"` (the evaluator formats a Python `int`). -/
def mkIdxPath (p : String) (i : Int) : String := p ++ "[" ++ toString i ++ "]"

/-- `isinstance(x, JSON_ARRAY_TYPES)` with
`JSON_ARRAY_TYPES = (list, tuple, Sequence)`: a Python `str` is a
registered `Sequence`, so the check accepts strings as well as arrays. -/
def isArr : JValue → Bool
  | .arr _ => true
  | .str _ => true
  | _ => false

/-- `normalize_slice_parameter` (`evaluator.py`): keep a non-negative
parameter, shift a negative one by the array length. -/
def normalizeSliceParameter (p len : Int) : Int := if 0 ≤ p then p else len + p

/-- `normalize_list_index` (`evaluator.py`): defined as
`normalize_slice_parameter`. -/
def normalizeListIndex (i len : Int) : Int := normalizeSliceParameter i len

/-- `JPathEvaluator.visit_NameSelectorNode`: for each input node whose value
is an object that has the member, emit that member's node. -/
def visitNameSelector (name : String) (input : List VNode) : List VNode :=
  input.flatMap fun n =>
    match n.jvalue with
    | .obj members =>
      match members.lookup name with
      | some v => [⟨mkNamePath n.path name, v, n.depth + 1⟩]
      | none => []
    | _ => []

/-- `JPathEvaluator.visit_IndexSelectorNode`: every input node passing the
`JSON_ARRAY_TYPES` check — arrays, but also strings, since `str` is a
`Sequence` — is indexed; empty sequences and out-of-range normalized
indices contribute nothing.  Indexing a string emits the one-character
string `jvalue[index_normal]` as the child value. -/
def visitIndexSelector (idx : Int) (input : List VNode) : List VNode :=
  input.flatMap fun n =>
    match n.jvalue with
    | .arr elems =>
      let len : Int := elems.length
      if len = 0 then []
      else
        let iN := normalizeListIndex idx len
        if 0 ≤ iN ∧ iN < len then
          match elems.get? iN.toNat with
          | some v => [⟨mkIdxPath n.path iN, v, n.depth + 1⟩]
          | none => []
        else []
    | .str s =>
      let len : Int := s.data.length
      if len = 0 then []
      else
        let iN := normalizeListIndex idx len
        if 0 ≤ iN ∧ iN < len then
          match s.data.get? iN.toNat with
          | some c => [⟨mkIdxPath n.path iN, .str (String.mk [c]), n.depth + 1⟩]
          | none => []
        else []
    | _ => []

/-! ### Python's `slice.indices` and `range`

`visit_SliceSelectorNode` delegates to CPython's `slice.indices(length)`
(which implements exactly the bounds normalization of RFC 9535 §2.3.4.2.2,
as the source comments note) and iterates `range(start, stop, step)`. -/

/-- CPython `slice(start, stop, step).indices(len)` for a non-zero step
(`step = None` defaults to 1): clamp / shift the bounds. -/
def sliceIndices (start stop step : Option Int) (len : Int) : Int × Int × Int :=
  let st : Int := step.getD 1
  let lower : Int := if st < 0 then -1 else 0
  let upper : Int := if st < 0 then len - 1 else len
  let start' : Int :=
    match start with
    | none => if st < 0 then upper else lower
    | some s => if s < 0 then max (s + len) lower else min s upper
  let stop' : Int :=
    match stop with
    | none => if st < 0 then lower else upper
    | some e => if e < 0 then max (e + len) lower else min e upper
  (start', stop', st)

/-- Number of elements of Python `range(start, stop, step)`. -/
def pyRangeLen (start stop step : Int) : Nat :=
  if 0 < step then ((stop - start + step - 1) / step).toNat
  else if step < 0 then ((start - stop - step - 1) / (-step)).toNat
  else 0

/-- Python `range(start, stop, step)` as a list. -/
def pyRange (start stop step : Int) : List Int :=
  (List.range (pyRangeLen start stop step)).map fun (k : Nat) => start + (k : Int) * step

/-- `JPathEvaluator.visit_SliceSelectorNode`: every input node passing the
`JSON_ARRAY_TYPES` check — arrays, but also strings, since `str` is a
`Sequence` — is sliced; skip when the sequence is empty or the slice was
written with step `0`; otherwise emit the elements at
`range(*slice.indices(len))` in iteration order (one-character strings
when the input value is a string). -/
def visitSliceSelector (start stop step : Option Int) (input : List VNode) : List VNode :=
  input.flatMap fun n =>
    match n.jvalue with
    | .arr elems =>
      let len : Int := elems.length
      if len = 0 ∨ step = some 0 then []
      else
        let bounds := sliceIndices start stop step len
        (pyRange bounds.1 bounds.2.1 bounds.2.2).flatMap fun i =>
          match elems.get? i.toNat with
          | some v => [⟨mkIdxPath n.path i, v, n.depth + 1⟩]
          | none => []
    | .str s =>
      let len : Int := s.data.length
      if len = 0 ∨ step = some 0 then []
      else
        let bounds := sliceIndices start stop step len
        (pyRange bounds.1 bounds.2.1 bounds.2.2).flatMap fun i =>
          match s.data.get? i.toNat with
          | some c => [⟨mkIdxPath n.path i, .str (String.mk [c]), n.depth + 1⟩]
          | none => []
    | _ => []

/-! ### Filter selector (`visit_FilterSelectorNode`)

The logical expression of the filter is an arbitrary sub-AST; its
evaluation on the current node (`@`) is abstracted as a function
`VNode → FilterOutcome`.  `FilterOutcome` covers the result kinds the
evaluator's inclusion chain inspects: a `VNodeList`, a
`BooleanValue`/Python `bool`, a `LogicalType`, or `Nothing`. -/

inductive FilterOutcome : Type where
  | nodes (ns : List VNode)
  | boolv (b : Bool)
  | logical (b : Bool)
  | nothing
deriving Repr

/-- The inclusion chain of `visit_FilterSelectorNode`: a `VNodeList` counts
iff non-empty (existence test); `bool` / `BooleanValue` / `LogicalType`
count by their truthiness (`BooleanValue.__bool__` and
`LogicalType.__bool__` both return the wrapped boolean); `Nothing` is
skipped. -/
def includeChild : FilterOutcome → Bool
  | .nodes ns => !ns.isEmpty
  | .boolv b => b
  | .logical b => b
  | .nothing => false

/-- `visit_FilterSelectorNode`: for each input node, primitives are skipped;
for an array input each element child (in array order), and for an object
input each member child (in insertion order), is tested with `@` bound to
the child and kept iff the outcome is included. -/
def visitFilterSelector (evalExpr : VNode → FilterOutcome) (input : List VNode) : List VNode :=
  input.flatMap fun n =>
    match n.jvalue with
    | .arr elems =>
      elems.enum.flatMap fun iv =>
        let c : VNode := ⟨mkIdxPath n.path iv.1, iv.2, n.depth + 1⟩
        if includeChild (evalExpr c) then [c] else []
    | .obj mems =>
      mems.flatMap fun kv =>
        let c : VNode := ⟨mkNamePath n.path kv.1, kv.2, n.depth + 1⟩
        if includeChild (evalExpr c) then [c] else []
    | _ => []

/-! ### Segments and queries

`visit_SegmentNode` applies each selector of a child segment to the
segment's input nodelist and concatenates the outputs;
`visit_JsonPathQueryNode` / `visit_RelativeQueryNode` chain segments, the
output of one becoming the input of the next.  Selector applications are
abstracted as functions `List VNode → List VNode`. -/

/-- `visit_SegmentNode` (child segment). -/
def visitChildSegment (selectors : List (List VNode → List VNode)) (input : List VNode) :
    List VNode :=
  selectors.foldl (fun acc sel => acc ++ sel input) []

/-- The segment chain of `visit_JsonPathQueryNode` /
`visit_RelativeQueryNode`. -/
def evalSegments (segs : List (List VNode → List VNode)) (input : List VNode) : List VNode :=
  segs.foldl (fun inp seg => seg inp) input

/-- `visit_RelativeQueryNode`: evaluate the segments starting from the
current node (`@`). -/
def visitRelativeQuery (current : VNode) (segs : List (List VNode → List VNode)) : List VNode :=
  evalSegments segs [current]

/-- `visit_JsonPathQueryNode`: evaluate the segments starting from the root
nodelist `[VNode("$", root)]`. -/
def evalJsonPathQuery (root : JValue) (segs : List (List VNode → List VNode)) : List VNode :=
  evalSegments segs [⟨"$", root, 0⟩]

/-! ### Spec-side reading of the filter selector, for comparison (C3) -/

/-- The children of a node as the spec words them: array elements in index
order, object member values in insertion order, nothing for primitives
(grammar shared with `visit_FilterSelectorNode`'s inline child
construction). -/
def childrenOfNode (n : VNode) : List VNode :=
  match n.jvalue with
  | .arr elems => elems.enum.map fun iv => ⟨mkIdxPath n.path iv.1, iv.2, n.depth + 1⟩
  | .obj mems => mems.map fun kv => ⟨mkNamePath n.path kv.1, kv.2, n.depth + 1⟩
  | _ => []

/-- Truthiness of a filter outcome exactly as the spec words it: a
non-empty nodelist, `LogicalTrue`, or `BooleanValue(true)` are truthy;
`Nothing` and empty nodelists are falsy. -/
def truthyOutcome (o : FilterOutcome) : Prop :=
  (∃ ns, o = .nodes ns ∧ ns ≠ []) ∨ o = .logical true ∨ o = .boolv true

theorem flatMap_if_singleton {α β : Type} (f : α → β) (p : β → Bool) (l : List α) :
    (l.flatMap fun x => if p (f x) then [f x] else []) = (l.map f).filter p := by
  induction l with
  | nil => rfl
  | cons x xs ih => cases hp : p (f x) <;> simp [List.flatMap_cons, List.filter_cons, hp, ih]

/-- C3.  The filter selector tests the children of each input node whose
value is an array or object (primitives contribute nothing), evaluating the
logical expression with `@` bound to each child; a child is selected iff the
outcome is truthy, where a non-empty nodelist, `LogicalTrue` and
`BooleanValue(true)` are truthy and `Nothing` and empty nodelists are falsy.
Last conjunct: scenario S5, root `{"a":[{"b":1},{"b":2},{"c":3}]}`, query
`$.a[?@.b]`. -/
theorem filter_selector_spec :
    (∀ (e : VNode → FilterOutcome) (input : List VNode),
      visitFilterSelector e input
        = input.flatMap fun n => (childrenOfNode n).filter fun c => includeChild (e c)) ∧
    (∀ o : FilterOutcome, includeChild o = true ↔ truthyOutcome o) ∧
    evalJsonPathQuery
      (.obj [("a", .arr [.obj [("b", .num 1)], .obj [("b", .num 2)], .obj [("c", .num 3)]])])
      [visitChildSegment [visitNameSelector "a"],
       visitChildSegment [visitFilterSelector fun c =>
         .nodes (visitRelativeQuery c [visitChildSegment [visitNameSelector "b"]])]]
      = [⟨"$['a'][0]", .obj [("b", .num 1)], 2⟩, ⟨"$['a'][1]", .obj [("b", .num 2)], 2⟩] := by
  refine ⟨?_, ?_, by rfl⟩
  · intro e input
    induction input with
    | nil => rfl
    | cons n rest ih =>
      simp only [visitFilterSelector, List.flatMap_cons] at ih ⊢
      rw [← ih]
      cases hv : n.jvalue <;> simp only [childrenOfNode, hv]
      · rfl
      · rfl
      · rfl
      · rfl
      · exact congrArg (· ++ _)
          (flatMap_if_singleton
            (fun (iv : Nat × JValue) => (⟨mkIdxPath n.path iv.1, iv.2, n.depth + 1⟩ : VNode))
            (fun c => includeChild (e c)) _)
      · exact congrArg (· ++ _)
          (flatMap_if_singleton
            (fun (kv : String × JValue) => (⟨mkNamePath n.path kv.1, kv.2, n.depth + 1⟩ : VNode))
            (fun c => includeChild (e c)) _)
  · intro o
    cases o with
    | nodes ns => cases ns <;> simp [includeChild, truthyOutcome]
    | boolv b => cases b <;> simp [includeChild, truthyOutcome]
    | logical b => cases b <;> simp [includeChild, truthyOutcome]
    | nothing => simp [includeChild, truthyOutcome]

/-- C6 (code bug).  The true parts of the claim hold: a negative index `i`
over a sequence of length `len` is normalized to `len + i`, an index that
remains out of range after normalization produces no output node (and no
error), input nodes that fail the `JSON_ARRAY_TYPES` check are ignored,
and scenario S2 (root `{"a":[1,2,3]}`, query `$.a[-1]`) evaluates as
claimed.  But "non-array input nodes are ignored" is false of the
program: `isinstance(jvalue, JSON_ARRAY_TYPES)` accepts `str` — a Python
`str` is a registered `Sequence` — so a string input node is indexed: on
root `{"a":"xyz"}` the query `$.a[0]` emits the character node `"x"` at
`$['a'][0]` instead of nothing (last conjunct). -/
theorem index_selector_spec :
    (∀ i len : Int, i < 0 → normalizeListIndex i len = len + i) ∧
    (∀ (i : Int) (n : VNode) (rest : List VNode), isArr n.jvalue = false →
      visitIndexSelector i (n :: rest) = visitIndexSelector i rest) ∧
    (∀ (i : Int) (n : VNode) (elems : List JValue), n.jvalue = .arr elems →
      ¬ (0 ≤ normalizeListIndex i elems.length ∧
         normalizeListIndex i elems.length < (elems.length : Int)) →
      visitIndexSelector i [n] = []) ∧
    evalJsonPathQuery (.obj [("a", .arr [.num 1, .num 2, .num 3])])
      [visitChildSegment [visitNameSelector "a"], visitChildSegment [visitIndexSelector (-1)]]
      = [⟨"$['a'][2]", .num 3, 2⟩] ∧
    evalJsonPathQuery (.obj [("a", .str "xyz")])
      [visitChildSegment [visitNameSelector "a"], visitChildSegment [visitIndexSelector 0]]
      = [⟨"$['a'][0]", .str "x", 2⟩] := by
  refine ⟨?_, ?_, ?_, by rfl, by rfl⟩
  · intro i len h
    simp only [normalizeListIndex, normalizeSliceParameter, if_neg (by omega : ¬ 0 ≤ i)]
  · intro i n rest h
    cases hv : n.jvalue <;> simp_all [visitIndexSelector, List.flatMap_cons, isArr]
  · intro i n elems hv hrange
    simp only [visitIndexSelector, List.flatMap_cons, List.flatMap_nil, List.append_nil, hv]
    rw [if_neg hrange]
    simp

/-- C5 (code bug).  The true parts of the claim hold: a slice written with
step `0` selects nothing, a negative step yields strictly decreasing
element indices (reverse traversal order), input nodes that fail the
`JSON_ARRAY_TYPES` check contribute nothing, and scenario S3 (root
`{"a":[1,2,3,4,5]}`, query `$.a[::-2]`) evaluates as claimed.  But
"non-array input nodes contribute nothing" is false of the program:
`isinstance(jvalue, JSON_ARRAY_TYPES)` accepts `str` — a Python `str` is
a registered `Sequence` — so a string input node is sliced: on root
`{"a":"xyz"}` the query `$.a[::-2]` emits the character nodes `"z"` at
`$['a'][2]` and `"x"` at `$['a'][0]` instead of nothing (last conjunct). -/
theorem slice_selector_spec :
    (∀ (start stop : Option Int) (input : List VNode),
      visitSliceSelector start stop (some 0) input = []) ∧
    (∀ a b st : Int, st < 0 → (pyRange a b st).Pairwise fun x y => y < x) ∧
    (∀ (s e st : Option Int) (n : VNode) (rest : List VNode), isArr n.jvalue = false →
      visitSliceSelector s e st (n :: rest) = visitSliceSelector s e st rest) ∧
    evalJsonPathQuery (.obj [("a", .arr [.num 1, .num 2, .num 3, .num 4, .num 5])])
      [visitChildSegment [visitNameSelector "a"],
       visitChildSegment [visitSliceSelector none none (some (-2))]]
      = [⟨"$['a'][4]", .num 5, 2⟩, ⟨"$['a'][2]", .num 3, 2⟩, ⟨"$['a'][0]", .num 1, 2⟩] ∧
    evalJsonPathQuery (.obj [("a", .str "xyz")])
      [visitChildSegment [visitNameSelector "a"],
       visitChildSegment [visitSliceSelector none none (some (-2))]]
      = [⟨"$['a'][2]", .str "z", 2⟩, ⟨"$['a'][0]", .str "x", 2⟩] := by
  refine ⟨?_, ?_, ?_, by rfl, by rfl⟩
  · intro s e input
    simp only [visitSliceSelector, List.flatMap_eq_nil_iff]
    intro n _
    cases hv : n.jvalue <;> simp [hv]
  · intro a b st h
    have hrange : (List.range (pyRangeLen a b st)).Pairwise (· < ·) :=
      List.pairwise_lt_range _
    unfold pyRange
    refine hrange.map _ ?_
    intro k k' hkk'
    have hk : (k : Int) < (k' : Int) := by exact_mod_cast hkk'
    exact add_lt_add_left (mul_lt_mul_of_neg_right hk h) a
  · intro s e st n rest h
    cases hv : n.jvalue <;> simp_all [visitSliceSelector, List.flatMap_cons, isArr]

/-! ## `match()` and `search()` function extensions (`function.py`)

`MatchFunction.eval` / `SearchFunction.eval` convert their two arguments to
strings with `RegexFuncBase._convert_args` (a `TypeError` is caught and
yields `LogicalFalse`), then call Python `re.fullmatch` respectively
`re.search`.  The regex engine is embedded for the fragment of patterns
made of literal characters and the `.` metacharacter (which in Python `re`
matches any character except a newline); `compileSimple` rejects every
other metacharacter, so a pattern outside the fragment is simply not
modelled (`matchEval` returns `none` for it). -/

inductive RAtom : Type where
  | lit (c : Char)
  | dot
deriving Repr, DecidableEq

/-- Python `re` metacharacters other than `.`: a pattern containing one is
outside the embedded fragment. -/
def reMetachars : List Char := ['\\', '^', '$', '*', '+', '?', '{', '}', '[', ']', '|', '(', ')']

/-- Compile a pattern of literal characters and `.` dots. -/
def compileSimple : List Char → Option (List RAtom)
  | [] => some []
  | c :: rest =>
    if c = '.' then (compileSimple rest).map (RAtom.dot :: ·)
    else if c ∈ reMetachars then none
    else (compileSimple rest).map (RAtom.lit c :: ·)

/-- One atom against one character (`.` matches anything but a newline). -/
def atomMatches : RAtom → Char → Bool
  | .lit c, d => c = d
  | .dot, d => decide (d ≠ '\n')

/-- The whole atom list against the whole character list:
`re.fullmatch` semantics for the fragment. -/
def atomsMatch : List RAtom → List Char → Bool
  | [], [] => true
  | a :: as, c :: cs => atomMatches a c && atomsMatch as cs
  | _, _ => false

/-- `re.fullmatch(pattern, s) is not None` for the fragment. -/
def reFullmatchB (atoms : List RAtom) (s : List Char) : Bool := atomsMatch atoms s

/-- `re.search(pattern, s) is not None` for the fragment: some contiguous
substring matches. -/
def reSearchB (atoms : List RAtom) (s : List Char) : Bool :=
  (List.range (s.length + 1)).any fun i => atomsMatch atoms ((s.drop i).take atoms.length)

/-- An argument as it reaches `RegexFuncBase.eval`: a `VNodeList` (from a
query such as `@`), a `str`/`StringValue` (from a string literal), or any
other evaluator value. -/
inductive FnArg : Type where
  | nodes (ns : List VNode)
  | strv (s : String)
  | other
deriving Repr

/-- `RegexFuncBase._convert_args`, per argument: a single-node `VNodeList`
whose node value is a string, or a `str`/`StringValue`; anything else
raises `TypeError` (modelled as `none`). -/
def convertStrArg : FnArg → Option String
  | .nodes [n] =>
    match n.jvalue with
    | .str s => some s
    | _ => none
  | .nodes _ => none
  | .strv s => some s
  | .other => none

/-- `MatchFunction.eval` once the pattern is compiled: `LogicalFalse` when
the first argument does not convert to a string, else full-string match. -/
def matchEvalCore (sa : FnArg) (atoms : List RAtom) : Bool :=
  match convertStrArg sa with
  | some s => reFullmatchB atoms s.toList
  | none => false

/-- `SearchFunction.eval` once the pattern is compiled. -/
def searchEvalCore (sa : FnArg) (atoms : List RAtom) : Bool :=
  match convertStrArg sa with
  | some s => reSearchB atoms s.toList
  | none => false

/-- `MatchFunction.eval`: convert the pattern argument, compile it (within
the fragment; `none` = pattern not modelled), and match.  A conversion
`TypeError` on either argument yields `LogicalFalse`. -/
def matchEval (sa pa : FnArg) : Option Bool :=
  match convertStrArg pa with
  | some p => (compileSimple p.toList).map fun atoms => matchEvalCore sa atoms
  | none => some false

/-- `SearchFunction.eval`, same shape as `matchEval`. -/
def searchEval (sa pa : FnArg) : Option Bool :=
  match convertStrArg pa with
  | some p => (compileSimple p.toList).map fun atoms => searchEvalCore sa atoms
  | none => some false

/-- C7.  `match()` returns `LogicalTrue` iff its first argument is a string
and the regex pattern matches the entirety of that string, returning
`LogicalFalse` otherwise (including for non-string inputs); `search()`
returns `LogicalTrue` on any substring match.  The last two conjuncts are
scenario S6: for root `{"a":["abc","ab","abcd"]}`, `$.a[?match(@, "ab.")]`
selects only `"abc"`, while the `search` variant also selects `"abcd"`. -/
theorem match_search_spec :
    (∀ (sa pa : FnArg) (b : Bool), matchEval sa pa = some b →
      (b = true ↔ ∃ s p atoms, convertStrArg sa = some s ∧ convertStrArg pa = some p ∧
        compileSimple p.toList = some atoms ∧ reFullmatchB atoms s.toList = true)) ∧
    (∀ (sa pa : FnArg) (b : Bool), searchEval sa pa = some b →
      (b = true ↔ ∃ s p atoms, convertStrArg sa = some s ∧ convertStrArg pa = some p ∧
        compileSimple p.toList = some atoms ∧
        ∃ i, atomsMatch atoms ((s.toList.drop i).take atoms.length) = true)) ∧
    compileSimple "ab.".toList = some [.lit 'a', .lit 'b', .dot] ∧
    evalJsonPathQuery (.obj [("a", .arr [.str "abc", .str "ab", .str "abcd"])])
      [visitChildSegment [visitNameSelector "a"],
       visitChildSegment [visitFilterSelector fun c =>
         .logical (matchEvalCore (.nodes (visitRelativeQuery c [])) [.lit 'a', .lit 'b', .dot])]]
      = [⟨"$['a'][0]", .str "abc", 2⟩] ∧
    evalJsonPathQuery (.obj [("a", .arr [.str "abc", .str "ab", .str "abcd"])])
      [visitChildSegment [visitNameSelector "a"],
       visitChildSegment [visitFilterSelector fun c =>
         .logical (searchEvalCore (.nodes (visitRelativeQuery c [])) [.lit 'a', .lit 'b', .dot])]]
      = [⟨"$['a'][0]", .str "abc", 2⟩, ⟨"$['a'][2]", .str "abcd", 2⟩] := by
  refine ⟨?_, ?_, by rfl, by rfl, by rfl⟩
  · intro sa pa b h
    cases hpa : convertStrArg pa with
    | none =>
      simp only [matchEval, hpa] at h
      cases h
      simp [hpa]
    | some p =>
      simp only [matchEval, hpa, Option.map_eq_some'] at h
      obtain ⟨atoms, hat, hb⟩ := h
      subst hb
      cases hsa : convertStrArg sa with
      | none => simp [matchEvalCore, hsa, hat]
      | some s =>
        simp only [matchEvalCore, hsa]
        constructor
        · intro hfm
          exact ⟨s, p, atoms, rfl, rfl, hat, hfm⟩
        · rintro ⟨s', p', atoms', hs', hp', hat', hfm'⟩
          injection hs' with h1
          injection hp' with h2
          subst h1
          subst h2
          have h3 : atoms = atoms' := by injection hat.symm.trans hat'
          subst h3
          exact hfm'
  · intro sa pa b h
    cases hpa : convertStrArg pa with
    | none =>
      simp only [searchEval, hpa] at h
      cases h
      simp [hpa]
    | some p =>
      simp only [searchEval, hpa, Option.map_eq_some'] at h
      obtain ⟨atoms, hat, hb⟩ := h
      subst hb
      cases hsa : convertStrArg sa with
      | none => simp [searchEvalCore, hsa, hat]
      | some s =>
        simp only [searchEvalCore, hsa, reSearchB, List.any_eq_true]
        constructor
        · rintro ⟨i, _, hm⟩
          exact ⟨s, p, atoms, rfl, rfl, hat, i, hm⟩
        · rintro ⟨s', p', atoms', hs', hp', hat', i, hm⟩
          injection hs' with h1
          injection hp' with h2
          subst h1
          subst h2
          have h3 : atoms = atoms' := by injection hat.symm.trans hat'
          subst h3
          by_cases hi : i ≤ s.toList.length
          · exact ⟨i, List.mem_range.mpr (by omega), hm⟩
          · have hdrop : s.toList.drop i = [] := List.drop_eq_nil_of_le (by omega)
            rw [hdrop] at hm
            cases atoms with
            | nil => exact ⟨0, List.mem_range.mpr (by omega), by simp [atomsMatch]⟩
            | cons a as => simp [atomsMatch] at hm

/-! ## Lexing numbers (`lexer.py` `match_number`, `jpath_bnf.py` `INT`/`NUMBER`)

The grammar constants:
`INT = (?:0|-?[1-9][0-9]*)` and
`NUMBER = (int_part: INT|-0)(frac: \.[0-9]+)?(exp: [eE][+-]?[0-9]+)?`.
Both regexes are deterministic for leftmost matching (alternatives are
discriminated by the first character, and the greedy `[0-9]*`/`[0-9]+`
groups cannot steal characters any later group needs), so they are embedded
as recursive prefix matchers. -/

/-- `[1-9]`. -/
def isDigit1 (c : Char) : Bool := decide ('1' ≤ c ∧ c ≤ '9')

/-- `[0-9]`. -/
def isDigitC (c : Char) : Bool := decide ('0' ≤ c ∧ c ≤ '9')

/-- Greedy `[0-9]*`: the digit prefix and the rest. -/
def takeDigits : List Char → List Char × List Char
  | [] => ([], [])
  | c :: rest =>
    if isDigitC c then
      let (ds, r) := takeDigits rest
      (c :: ds, r)
    else ([], c :: rest)

/-- Leftmost match of `INT = (?:0|-?[1-9][0-9]*)` at the head of the input:
the matched lexeme and the rest, or `none`. -/
def matchIntPrefix : List Char → Option (List Char × List Char)
  | [] => none
  | c :: rest =>
    if c = '0' then some ([c], rest)
    else if c = '-' then
      match rest with
      | d :: rest2 =>
        if isDigit1 d then
          let (ds, r) := takeDigits rest2
          some ('-' :: d :: ds, r)
        else none
      | [] => none
    else if isDigit1 c then
      let (ds, r) := takeDigits rest
      some (c :: ds, r)
    else none

/-- `JPathLexer.INT_RE.fullmatch(num_str) is not None`: the whole string is
one `INT` lexeme. -/
def intFullmatch (l : List Char) : Bool :=
  match matchIntPrefix l with
  | some (_, rest) => rest.isEmpty
  | none => false

/-- The `(?P<int_part>INT|-0)` group of `NUMBER` (alternatives tried in
order: `INT` first, then `-0`). -/
def matchIntPart (l : List Char) : Option (List Char × List Char) :=
  match matchIntPrefix l with
  | some r => some r
  | none =>
    match l with
    | '-' :: '0' :: rest => some (['-', '0'], rest)
    | _ => none

/-- The optional `(?P<frac_part>\.[0-9]+)` group: matched lexeme (possibly
empty) and rest. -/
def matchFrac : List Char → List Char × List Char
  | '.' :: c :: rest =>
    if isDigitC c then
      let (ds, r) := takeDigits (c :: rest)
      ('.' :: ds, r)
    else ([], '.' :: c :: rest)
  | l => ([], l)

/-- The optional `(?P<exp_part>[eE][+-]?[0-9]+)` group. -/
def matchExp : List Char → List Char × List Char
  | e :: rest =>
    if e = 'e' ∨ e = 'E' then
      match rest with
      | s :: rest2 =>
        if s = '+' ∨ s = '-' then
          match rest2 with
          | d :: _ =>
            if isDigitC d then
              let (ds, r) := takeDigits rest2
              (e :: s :: ds, r)
            else ([], e :: rest)
          | [] => ([], e :: rest)
        else if isDigitC s then
          let (ds, r) := takeDigits rest
          (e :: ds, r)
        else ([], e :: rest)
      | [] => ([], [e])
    else ([], e :: rest)
  | [] => ([], [])

/-- Token kinds of `tokens.py` (`TokenType`); only the lexeme-bearing kinds
the embedded lexer distinguishes. -/
inductive TokType : Type where
  | lbracket | rbracket | lparen | rparen | comma | dot | dollar | qmark
  | star | at | colon | tNot | gt | lt
  | doubleDot | equal | notEqual | gte | lte | tAnd | tOr
  | int | float | string | slice | identifier
  | tTrue | tFalse | tNull
  | unknown | eof
deriving Repr, DecidableEq

/-- `JPathLexer.match_number`: match the `NUMBER` regex at the head; the
token is `INT` exactly when `INT_RE.fullmatch` accepts the whole matched
lexeme, else `FLOAT`.  Returns the lexeme, the token type and the rest. -/
def matchNumber (l : List Char) : Option (List Char × TokType × List Char) :=
  match matchIntPart l with
  | none => none
  | some (ip, r1) =>
    let fr := matchFrac r1
    let ex := matchExp fr.2
    let numStr := ip ++ fr.1 ++ ex.1
    some (numStr, if intFullmatch numStr then TokType.int else TokType.float, ex.2)

/-- C8.  For every numeric lexeme matched by the lexer, an `Int` token is
emitted exactly when the lexeme fully matches the integer production
`0 | -?[1-9][0-9]*` (which excludes any fraction or exponent); `-0` does
not match it, so the literal `-0` is classified as a `Float` token. -/
theorem minus_zero_is_float :
    (∀ (l m rest : List Char) (tt : TokType), matchNumber l = some (m, tt, rest) →
      (tt = TokType.int ↔ intFullmatch m = true)) ∧
    intFullmatch ['-', '0'] = false ∧
    matchNumber ['-', '0'] = some (['-', '0'], TokType.float, []) := by
  refine ⟨?_, by decide, by decide⟩
  intro l m rest tt h
  simp only [matchNumber] at h
  cases hip : matchIntPart l with
  | none => rw [hip] at h; cases h
  | some r =>
    obtain ⟨ip, r1⟩ := r
    rw [hip] at h
    simp only [Option.some.injEq, Prod.mk.injEq] at h
    obtain ⟨hm, htt, -⟩ := h
    subst hm
    by_cases hif : intFullmatch (ip ++ (matchFrac r1).1 ++ (matchExp (matchFrac r1).2).1) = true
    · rw [if_pos hif] at htt
      subst htt
      simp only [List.append_assoc] at hif
      simp [hif]
    · rw [if_neg hif] at htt
      subst htt
      simp only [hif]
      constructor
      · intro hc; cases hc
      · intro hc; cases hc

/-! ## Numeric bounds on index selectors and slice bounds (C4)

`jpath_bnf.py`: `INT_MAX = 2**53 - 1`, `INT_MIN = -(2**53) + 1`.

`selector_nodes.py`: `IndexSelectorNode.__init__` and
`SliceSelectorNode.__init__` raise Python `IndexError` when a (truthy,
i.e. non-zero, non-`None`) value lies outside `[INT_MIN, INT_MAX]`.

`parser.py`: `JPathParser.slice_selector` wraps the constructor in
`try/except IndexError` and converts the exception to a *returned*
`ValidationError` (`res.failure(...)`), while `JPathParser.index_selector`
calls `IndexSelectorNode(...)` with no `try/except`, so for an out-of-range
index the `IndexError` escapes the parser as an uncaught exception. -/

def INT_MAX : Int := 2 ^ 53 - 1

def INT_MIN : Int := -(2 ^ 53) + 1

/-- How a parser step reports: a value, a returned error (`ParseResult`
failure), or an uncaught Python exception. -/
inductive ParseOutcome (α : Type) : Type where
  | ok (a : α)
  | failure (validation : Bool)   -- a returned error value; `true` = ValidationError
  | raised                        -- an uncaught Python `IndexError`
deriving Repr, DecidableEq

/-- The bounds check shared by `IndexSelectorNode.__init__` (on the index)
and `SliceSelectorNode.__init__` (on each of start/end/step): a falsy value
(`None` or `0`) is not checked; a truthy one raises `IndexError` outside
`[INT_MIN, INT_MAX]`. -/
def boundsCheckRaises (p : Option Int) : Bool :=
  match p with
  | none => false
  | some v => decide (v ≠ 0 ∧ (v < INT_MIN ∨ v > INT_MAX))

/-- `JPathParser.index_selector`: no `try/except` around
`IndexSelectorNode(token)`, so a bounds violation escapes as a raised
exception. -/
def indexSelectorParse (i : Int) : ParseOutcome Int :=
  if boundsCheckRaises (some i) then .raised else .ok i

/-- `JPathParser.slice_selector`: `SliceSelectorNode(...)` inside
`try/except IndexError`, converted to a returned `ValidationError`
(start, end and step are checked in that order). -/
def sliceSelectorParse (start stop step : Option Int) :
    ParseOutcome (Option Int × Option Int × Option Int) :=
  if boundsCheckRaises start || boundsCheckRaises stop || boundsCheckRaises step then
    .failure true
  else .ok (start, stop, step)

/-- C4.  At the failing input `$[9007199254740992]` (index `2^53`, just
above `INT_MAX`), the index-selector parse raises an uncaught `IndexError`
and does not return a `ValidationError`, whereas the same bound violation
in a slice (`$[9007199254740992::]`) is returned as a `ValidationError`:
the claim's behaviour holds for slice bounds but the code diverges from it
for index selectors. -/
theorem index_bound_raises :
    indexSelectorParse (2 ^ 53) = ParseOutcome.raised ∧
    (∀ v : Bool, indexSelectorParse (2 ^ 53) ≠ ParseOutcome.failure v) ∧
    sliceSelectorParse (some (2 ^ 53)) none none = ParseOutcome.failure true ∧
    indexSelectorParse (2 ^ 53 - 1) = ParseOutcome.ok (2 ^ 53 - 1) := by
  refine ⟨by decide, by decide, by decide, by decide⟩

/-! ## Normalized-path construction (C9)

`NormalizedJPath.normalize_path` (`evaluator_types.py`): reject the empty
string, escape the path with `escape_string_content` (`helper.py`), then
require a full match of the conservative normal-form regex
`JPathNormalizedPathBNF.NORMALIZED_PATH` (`jpath_bnf.py`), raising
`ValueError` otherwise.

`_NORMAL_ESCAPABLE_RE = [\\\b\f\n\r\t] | (?<!\\)(?<!\[)'(?!\])` matches
single characters only, and the lookaround conditions read the *original*
text, so `re.sub` is a per-character map with one character of context on
each side. -/

/-- `_ESCAPE_MAP` of `helper.py` for the unconditionally escaped characters. -/
def escCharMap (c : Char) : List Char :=
  if c = '\\' then ['\\', '\\']
  else if c = '\x08' then ['\\', 'b']
  else if c = '\x0c' then ['\\', 'f']
  else if c = '\n' then ['\\', 'n']
  else if c = '\r' then ['\\', 'r']
  else if c = '\t' then ['\\', 't']
  else [c]

/-- One position of `_NORMAL_ESCAPABLE_RE.sub(_escape_char_for_jsonpath, ·)`:
`prev`/`next` are the neighbouring characters of the original string. -/
def escapeChar (prev : Option Char) (c : Char) (next : Option Char) : List Char :=
  if c = '\\' ∨ c = '\x08' ∨ c = '\x0c' ∨ c = '\n' ∨ c = '\r' ∨ c = '\t' then escCharMap c
  else if c = '\'' ∧ prev ≠ some '\\' ∧ prev ≠ some '[' ∧ next ≠ some ']' then ['\\', '\'']
  else [c]

/-- The substitution, walking the original string with its context. -/
def escapeList : Option Char → List Char → List Char
  | _, [] => []
  | prev, c :: rest => escapeChar prev c rest.head? ++ escapeList (some c) rest

/-- `escape_string_content`. -/
def escapeStringContent (s : String) : String := String.mk (escapeList none s.toList)

/-- `NORMAL_UNESCAPED`: any scalar value `≥ U+0020` other than `'` and `\`
(surrogates cannot inhabit a Lean `Char`). -/
def isNormalUnescaped (c : Char) : Bool :=
  decide (0x20 ≤ c.val ∧ c ≠ '\'' ∧ c ≠ '\\')

/-- The last two digits of `NORMAL_HEXCHAR = 00(0[0-7]|0b|0[e-f]|1[0-9a-f])`. -/
def isNormalHexTail (c3 c4 : Char) : Bool :=
  decide ((c3 = '0' ∧ (('0' ≤ c4 ∧ c4 ≤ '7') ∨ c4 = 'b' ∨ c4 = 'e' ∨ c4 = 'f')) ∨
          (c3 = '1' ∧ (('0' ≤ c4 ∧ c4 ≤ '9') ∨ ('a' ≤ c4 ∧ c4 ≤ 'f'))))

/-- A segment of the normal form: `[int]` or `['escaped-name']`. -/
inductive NSeg : Type where
  | idx (digits : List Char)
  | nameSel (content : List Char)
deriving Repr, DecidableEq

/-- Parse `NORMAL_SINGLE_QUOTED*` up to and including the closing `'`:
returns the content (still in escaped form) and the rest after the quote. -/
def parseQuotedContent : List Char → Option (List Char × List Char)
  | [] => none
  | c :: rest =>
    if c = '\'' then some ([], rest)
    else if c = '\\' then
      match rest with
      | [] => none
      | e :: rest1 =>
        if e = 'b' ∨ e = 'f' ∨ e = 'n' ∨ e = 'r' ∨ e = 't' ∨ e = '\'' ∨ e = '\\' then
          (parseQuotedContent rest1).map fun cr => ('\\' :: e :: cr.1, cr.2)
        else if e = 'u' then
          match rest1 with
          | c1 :: c2 :: c3 :: c4 :: rest2 =>
            if c1 = '0' ∧ c2 = '0' ∧ isNormalHexTail c3 c4 then
              (parseQuotedContent rest2).map fun cr =>
                ('\\' :: 'u' :: c1 :: c2 :: c3 :: c4 :: cr.1, cr.2)
            else none
          | _ => none
        else none
    else if isNormalUnescaped c then
      (parseQuotedContent rest).map fun cr => (c :: cr.1, cr.2)
    else none

/-- Parse `NORMAL_INDEX_SELECTOR = 0|[1-9][0-9]*` (greedy digit run, no
leading zero). -/
def parseIdxDigits (l : List Char) : Option (List Char × List Char) :=
  match takeDigits l with
  | ([], _) => none
  | (d :: ds, r) =>
    if d = '0' ∧ ds ≠ [] then none
    else some (d :: ds, r)

/-- Parse one `NORMAL_INDEX_SEGMENT = \[(name|int)\]`. -/
def parseSeg : List Char → Option (NSeg × List Char)
  | [] => none
  | c :: rest =>
    if c = '[' then
      match rest with
      | '\'' :: rest1 =>
        (parseQuotedContent rest1).bind fun cr =>
          match cr.2 with
          | ']' :: r2 => some (.nameSel cr.1, r2)
          | _ => none
      | _ =>
        (parseIdxDigits rest).bind fun dr =>
          match dr.2 with
          | ']' :: r2 => some (.idx dr.1, r2)
          | _ => none
    else none

theorem takeDigits_length (l : List Char) : (takeDigits l).2.length ≤ l.length := by
  induction l with
  | nil => simp [takeDigits]
  | cons c rest ih =>
    simp only [takeDigits]
    split
    · simpa using Nat.le_succ_of_le ih
    · simp

/-- A single quote in escaped content is only legitimate right after a
backslash: scanning left to right, an escape pair covers its second
character, and a bare `'` is rejected. -/
def noUnescapedQuote : List Char → Bool
  | [] => true
  | c :: rest =>
    if c = '\\' then
      match rest with
      | [] => true
      | _ :: rest2 => noUnescapedQuote rest2
    else if c = '\'' then false
    else noUnescapedQuote rest

theorem noUnescapedQuote_pair (x : Char) (l : List Char) :
    noUnescapedQuote ('\\' :: x :: l) = noUnescapedQuote l := by
  rw [noUnescapedQuote.eq_def]
  simp

theorem noUnescapedQuote_cons (c : Char) (l : List Char) (hb : c ≠ '\\') (hq : c ≠ '\'') :
    noUnescapedQuote (c :: l) = noUnescapedQuote l := by
  rw [noUnescapedQuote.eq_def]
  simp [hb, hq]

theorem takeDigits_append (l : List Char) : (takeDigits l).1 ++ (takeDigits l).2 = l := by
  induction l with
  | nil => rfl
  | cons c rest ih =>
    simp only [takeDigits]
    split
    · simpa using ih
    · simp

/-- Soundness of the quoted-content parser: the consumed text is the content
followed by the closing quote, strictly shorter input remains, and the
content has no unescaped single quote. -/
theorem parseQuotedContent_spec :
    ∀ (l : List Char) (cr : List Char × List Char), parseQuotedContent l = some cr →
      cr.1 ++ '\'' :: cr.2 = l ∧ cr.2.length < l.length ∧ noUnescapedQuote cr.1 = true := by
  have main : ∀ (n : Nat) (l : List Char), l.length ≤ n →
      ∀ cr, parseQuotedContent l = some cr →
        cr.1 ++ '\'' :: cr.2 = l ∧ cr.2.length < l.length ∧ noUnescapedQuote cr.1 = true := by
    intro n
    induction n with
    | zero =>
      intro l hl cr h
      cases l with
      | nil => cases h
      | cons c rest => simp at hl
    | succ n ih =>
      intro l hl cr h
      cases l with
      | nil => cases h
      | cons c rest =>
        rw [parseQuotedContent.eq_def] at h
        simp only [] at h
        split at h
        · next hc =>
          subst hc
          cases h
          exact ⟨rfl, by simp, rfl⟩
        · split at h
          · next hc =>
            subst hc
            cases rest with
            | nil => cases h
            | cons e rest1 =>
              simp only [] at h
              split at h
              · next he =>
                simp only [Option.map_eq_some'] at h
                obtain ⟨cr', hcr', rfl⟩ := h
                obtain ⟨ha, hlen, hq⟩ := ih rest1 (by simp at hl ⊢; omega) cr' hcr'
                refine ⟨by simp [ha], by simp at hlen ⊢; omega, ?_⟩
                rw [noUnescapedQuote_pair]
                exact hq
              · split at h
                · next hu =>
                  subst hu
                  split at h
                  · next c1 c2 c3 c4 rest2 =>
                    split at h
                    · next hhex =>
                      simp only [Option.map_eq_some'] at h
                      obtain ⟨cr', hcr', rfl⟩ := h
                      obtain ⟨ha, hlen, hq⟩ := ih rest2 (by simp at hl ⊢; omega) cr' hcr'
                      obtain ⟨h1, h2, h3⟩ := hhex
                      subst h1
                      subst h2
                      have hc3 : c3 = '0' ∨ c3 = '1' := by
                        simp only [isNormalHexTail, decide_eq_true_eq] at h3
                        rcases h3 with ⟨h, -⟩ | ⟨h, -⟩
                        · exact Or.inl h
                        · exact Or.inr h
                      have hc4 : c4 ≠ '\\' ∧ c4 ≠ '\'' := by
                        simp only [isNormalHexTail, decide_eq_true_eq] at h3
                        rcases h3 with ⟨-, ⟨hlo, hhi⟩ | h | h | h⟩ | ⟨-, ⟨hlo, hhi⟩ | ⟨hlo, hhi⟩⟩ <;>
                          first
                            | (subst h; exact ⟨by decide, by decide⟩)
                            | (rw [Char.le_def] at hlo hhi
                               constructor <;> (intro heq; subst heq; simp at hlo hhi))
                      refine ⟨by simp [ha], by simp at hlen ⊢; omega, ?_⟩
                      rw [noUnescapedQuote_pair]
                      rw [noUnescapedQuote_cons '0' _ (by decide) (by decide)]
                      rw [noUnescapedQuote_cons '0' _ (by decide) (by decide)]
                      rw [noUnescapedQuote_cons c3 _
                            (by rcases hc3 with h | h <;> subst h <;> decide)
                            (by rcases hc3 with h | h <;> subst h <;> decide)]
                      rw [noUnescapedQuote_cons c4 _ hc4.1 hc4.2]
                      exact hq
                    · cases h
                  · cases h
                · cases h
          · split at h
            · next hc2 =>
              simp only [Option.map_eq_some'] at h
              obtain ⟨cr', hcr', rfl⟩ := h
              obtain ⟨ha, hlen, hq⟩ := ih rest (by simp at hl ⊢; omega) cr' hcr'
              have hne : c ≠ '\\' ∧ c ≠ '\'' := by
                simp only [isNormalUnescaped, decide_eq_true_eq] at hc2
                exact ⟨hc2.2.2, hc2.2.1⟩
              refine ⟨by simp [ha], by simp at hlen ⊢; omega, ?_⟩
              rw [noUnescapedQuote_cons c _ hne.1 hne.2]
              exact hq
            · cases h
  intro l cr h
  exact main l.length l le_rfl cr h

/-- Soundness of the per-segment parser: rendering the parsed segment and
appending the rest reproduces the input; the rest is strictly shorter; a
parsed name selector has no unescaped single quote. -/
def renderSeg : NSeg → List Char
  | .idx ds => '[' :: (ds ++ [']'])
  | .nameSel c => '[' :: '\'' :: (c ++ ['\'', ']'])

theorem parseSeg_sound :
    ∀ (l : List Char) (sr : NSeg × List Char), parseSeg l = some sr →
      renderSeg sr.1 ++ sr.2 = l ∧ sr.2.length < l.length ∧
      (∀ content, sr.1 = NSeg.nameSel content → noUnescapedQuote content = true) := by
  intro l sr h
  cases l with
  | nil => cases h
  | cons c rest =>
    rw [parseSeg.eq_def] at h
    simp only [] at h
    split at h
    · next hc =>
      subst hc
      split at h
      · next rest1 =>
        simp only [Option.bind_eq_some] at h
        obtain ⟨cr, hcr, h2⟩ := h
        obtain ⟨ha, hlen, hq⟩ := parseQuotedContent_spec rest1 cr hcr
        split at h2
        · next r2 heq =>
          cases h2
          rw [heq] at ha hlen
          refine ⟨?_, ?_, ?_⟩
          · simp only [renderSeg]
            simp only [← ha]
            simp
          · simp at hlen ⊢
            omega
          · intro content hco
            injection hco with hco
            subst hco
            exact hq
        · cases h2
      · simp only [Option.bind_eq_some] at h
        obtain ⟨dr, hdr, h2⟩ := h
        have hd : dr.1 ++ dr.2 = rest ∧ dr.2.length ≤ rest.length := by
          simp only [parseIdxDigits] at hdr
          split at hdr
          · cases hdr
          · next d ds r heq =>
            split at hdr
            · cases hdr
            · cases hdr
              have happ := takeDigits_append rest
              rw [heq] at happ
              have hlen := takeDigits_length rest
              rw [heq] at hlen
              exact ⟨happ, hlen⟩
        split at h2
        · next r2 heq =>
          cases h2
          obtain ⟨happ, hlen⟩ := hd
          rw [heq] at happ hlen
          refine ⟨?_, ?_, ?_⟩
          · simp only [renderSeg]
            simp only [← happ]
            simp
          · simp at hlen ⊢
            omega
          · intro content hco
            cases hco
        · cases h2
    · cases h

/-- `NORMAL_INDEX_SEGMENT*`, by fuel (one unit per segment; a segment
consumes at least one character, so `l.length` units always suffice —
`parseSegsF_congr` below shows the result is fuel-independent from there). -/
def parseSegsF : Nat → List Char → Option (List NSeg)
  | _, [] => some []
  | 0, _ :: _ => none
  | fuel + 1, c :: rest =>
    match parseSeg (c :: rest) with
    | none => none
    | some sr => (parseSegsF fuel sr.2).map (sr.1 :: ·)

def parseSegs (l : List Char) : Option (List NSeg) := parseSegsF l.length l

theorem parseSegsF_congr :
    ∀ (f1 f2 : Nat) (l : List Char), l.length ≤ f1 → l.length ≤ f2 →
      parseSegsF f1 l = parseSegsF f2 l := by
  intro f1
  induction f1 with
  | zero =>
    intro f2 l h1 h2
    cases l with
    | nil => cases f2 <;> rfl
    | cons c rest => simp at h1
  | succ f1 ih =>
    intro f2 l h1 h2
    cases l with
    | nil => cases f2 <;> rfl
    | cons c rest =>
      cases f2 with
      | zero => simp at h2
      | succ f2 =>
        simp only [parseSegsF]
        cases hs : parseSeg (c :: rest) with
        | none => rfl
        | some sr =>
          have hlt := (parseSeg_sound _ _ hs).2.1
          simp only [List.length_cons] at hlt h1 h2
          simp only [ih f2 sr.2 (by omega) (by omega)]

theorem parseSegsF_sound :
    ∀ (fuel : Nat) (l : List Char) (segs : List NSeg), parseSegsF fuel l = some segs →
      segs.flatMap renderSeg = l ∧
      ∀ content, NSeg.nameSel content ∈ segs → noUnescapedQuote content = true := by
  intro fuel
  induction fuel with
  | zero =>
    intro l segs h
    cases l with
    | nil => cases h; simp
    | cons c rest => cases h
  | succ fuel ih =>
    intro l segs h
    cases l with
    | nil => cases h; simp
    | cons c rest =>
      simp only [parseSegsF] at h
      cases hs : parseSeg (c :: rest) with
      | none => rw [hs] at h; cases h
      | some sr =>
        rw [hs] at h
        simp only [Option.map_eq_some'] at h
        obtain ⟨segs', hsegs', rfl⟩ := h
        obtain ⟨hr, hq⟩ := ih sr.2 segs' hsegs'
        obtain ⟨happ, -, hqseg⟩ := parseSeg_sound _ _ hs
        constructor
        · simp only [List.flatMap_cons, hr, happ]
        · intro content hc
          rcases List.mem_cons.mp hc with hc | hc
          · exact hqseg content hc.symm
          · exact hq content hc

/-- `NORMALIZED_PATH = ^\$(segment*)$`. -/
def parseNormalPath (l : List Char) : Option (List NSeg) :=
  match l with
  | '$' :: rest => parseSegs rest
  | _ => none

/-- `NORMALIZED_PATH_RE.match(escaped_path)` succeeds (the pattern is
anchored on both sides, so `match` is a full match). -/
def normalFormB (s : String) : Bool := (parseNormalPath s.toList).isSome

/-- `NormalizedJPath.normalize_path`: reject the empty string, escape, then
require normal form; `Except.error ()` stands for the raised `ValueError`. -/
def normalizePath (s : String) : Except Unit String :=
  if s.isEmpty then .error ()
  else
    let escaped := escapeStringContent s
    if normalFormB escaped then .ok escaped else .error ()

/-- C9.  Every `NormalizedJPath` a construction exposes matches the
conservative normal-form regex: it decomposes as `$` followed by rendered
`['name']`/`[int]` segments whose name contents contain no unescaped
single quote; a string whose escaped form does not match is rejected with
a raised `ValueError` instead of being exposed.  Concretely,
`$['a'][0]` is accepted unchanged, the quote in member name `a'b` is
escaped, and `$[x]` is rejected. -/
theorem normalized_path_invariant :
    (∀ s r : String, normalizePath s = Except.ok r →
      normalFormB r = true ∧
      ∃ segs : List NSeg, parseNormalPath r.toList = some segs ∧
        r.toList = '$' :: segs.flatMap renderSeg ∧
        ∀ content, NSeg.nameSel content ∈ segs → noUnescapedQuote content = true) ∧
    (∀ s : String, normalFormB (escapeStringContent s) = false →
      ∀ r, normalizePath s ≠ Except.ok r) ∧
    normalizePath "$['a'][0]" = Except.ok "$['a'][0]" ∧
    normalizePath "$['a'b']" = Except.ok "$['a\\'b']" ∧
    normalizePath "$[x]" = Except.error () := by
  refine ⟨?_, ?_, by rfl, by rfl, by rfl⟩
  · intro s r h
    simp only [normalizePath] at h
    split at h
    · cases h
    · split at h
      · next hnf =>
        cases h
        refine ⟨hnf, ?_⟩
        simp only [normalFormB, Option.isSome_iff_exists] at hnf
        obtain ⟨segs, hsegs⟩ := hnf
        refine ⟨segs, hsegs, ?_, ?_⟩
        · simp only [parseNormalPath] at hsegs
          split at hsegs
          · next rst heq =>
            obtain ⟨hr, -⟩ := parseSegsF_sound _ _ _ hsegs
            rw [heq, hr]
          · cases hsegs
        · simp only [parseNormalPath] at hsegs
          split at hsegs
          · next rst heq => exact (parseSegsF_sound _ _ _ hsegs).2
          · cases hsegs
      · cases h
  · intro s hnf r h
    simp only [normalizePath] at h
    split at h
    · cases h
    · rw [if_neg (by simp [hnf])] at h
      cases h

/-! ## The lexer's main loop (`JPathLexer.tokenize`) (C10)

The loop scans left to right, dispatching in this order: whitespace
(eaten, no token), two-character operators, single-character operators,
member-name shorthand / keywords, string literals (can fail with
`UnterminatedStringLiteral`), slice selectors, numbers, and finally the
illegal-character error (which appends an `UNKNOWN` token and returns).
Only after the input is exhausted is a single `EOF` token appended. -/

/-- A token: kind and lexeme text. -/
abbrev Tok : Type := TokType × List Char

/-- The two lexer failure kinds. -/
inductive LexErr : Type where
  | illegalChar
  | unterminatedString
deriving Repr, DecidableEq

/-- `BLANK_CHAR`: space, horizontal tab, line feed, carriage return. -/
def isBlankChar (c : Char) : Bool :=
  c = ' ' ∨ c = '\t' ∨ c = '\n' ∨ c = '\r'

/-- Greedy `SPACES` match (the lexeme is eaten, never tokenized). -/
def takeSpaces : List Char → List Char × List Char
  | [] => ([], [])
  | c :: rest =>
    if isBlankChar c then
      let (ds, r) := takeSpaces rest
      (c :: ds, r)
    else ([], c :: rest)

/-- The two-character entries of `TOKEN_LOOKUP_DICT`
(`TWO_CHAR_LEXEMES_SET`). -/
def twoCharTable : List ((Char × Char) × TokType) :=
  [(('.', '.'), .doubleDot), (('=', '='), .equal), (('!', '='), .notEqual),
   (('>', '='), .gte), (('<', '='), .lte), (('&', '&'), .tAnd), (('|', '|'), .tOr)]

/-- `TWO_CHAR_LEXEMES_SET` membership plus the `TOKEN_LOOKUP_DICT` lookup. -/
def twoCharTok (c1 c2 : Char) : Option TokType :=
  (twoCharTable.find? (fun p => p.1.1 == c1 && p.1.2 == c2)).map Prod.snd

/-- The single-character entries of `TOKEN_LOOKUP_DICT`
(`SINGLE_CHAR_LEXEMES_SET`; quotes and the colon are deliberately absent:
they are handled by the string-literal and slice matchers). -/
def singleCharTable : List (Char × TokType) :=
  [('.', .dot), ('[', .lbracket), (']', .rbracket), (',', .comma), ('?', .qmark),
   ('*', .star), ('@', .at), ('!', .tNot), ('>', .gt), ('<', .lt),
   ('(', .lparen), (')', .rparen), ('$', .dollar)]

/-- `SINGLE_CHAR_LEXEMES_SET` membership plus the `TOKEN_LOOKUP_DICT`
lookup. -/
def singleCharTok (c : Char) : Option TokType :=
  (singleCharTable.find? (fun p => p.1 == c)).map Prod.snd

/-- `NAME_FIRST = ALPHA / "_" / %x80-D7FF / %xE000-10FFFF` (a Lean `Char`
is never a surrogate, so `≥ 0x80` covers the unicode alternative). -/
def isNameFirst (c : Char) : Bool :=
  (('a' ≤ c ∧ c ≤ 'z') ∨ ('A' ≤ c ∧ c ≤ 'Z') ∨ c = '_' ∨ 0x80 ≤ c.val : Prop)

/-- `NAME_CHAR = NAME_FIRST / DIGIT`. -/
def isNameChar (c : Char) : Bool := isNameFirst c || isDigitC c

/-- Greedy `NAME_CHAR*`. -/
def takeNameChars : List Char → List Char × List Char
  | [] => ([], [])
  | c :: rest =>
    if isNameChar c then
      let (ds, r) := takeNameChars rest
      (c :: ds, r)
    else ([], c :: rest)

/-- Keyword lookup of `match_member_name_shorthand`: `true`/`false`/`null`
become keyword tokens, everything else an `IDENTIFIER`. -/
def keywordOr (lexeme : List Char) : TokType :=
  if lexeme = ['t', 'r', 'u', 'e'] then .tTrue
  else if lexeme = ['f', 'a', 'l', 's', 'e'] then .tFalse
  else if lexeme = ['n', 'u', 'l', 'l'] then .tNull
  else .identifier

/-- `JPathLexer.match_member_name_shorthand` (regex
`NAME_FIRST NAME_CHAR*`): lexeme, token kind, rest. -/
def matchName : List Char → Option (List Char × TokType × List Char)
  | [] => none
  | c :: rest =>
    if isNameFirst c then
      let nr := takeNameChars rest
      some (c :: nr.1, keywordOr (c :: nr.1), nr.2)
    else none

/-- `[0-9a-fA-F]`. -/
def isHexDigitC (c : Char) : Bool :=
  (('0' ≤ c ∧ c ≤ '9') ∨ ('a' ≤ c ∧ c ≤ 'f') ∨ ('A' ≤ c ∧ c ≤ 'F') : Prop)

/-- `NON_SURROGATE` of `jpath_bnf.py`: four hex digits below `D800` or in
`E000-FFFF`. -/
def isNonSurrogate4 (h1 h2 h3 h4 : Char) : Bool :=
  ((('0' ≤ h1 ∧ h1 ≤ '9') ∨ ('a' ≤ h1 ∧ h1 ≤ 'c') ∨ ('A' ≤ h1 ∧ h1 ≤ 'C')) ∧
      isHexDigitC h2 ∧ isHexDigitC h3 ∧ isHexDigitC h4 : Prop) ||
  (((h1 = 'd' ∨ h1 = 'D') ∧ ('0' ≤ h2 ∧ h2 ≤ '7') ∧ isHexDigitC h3 ∧ isHexDigitC h4) : Prop) ||
  (((h1 = 'e' ∨ h1 = 'E' ∨ h1 = 'f' ∨ h1 = 'F') ∧
      isHexDigitC h2 ∧ isHexDigitC h3 ∧ isHexDigitC h4) : Prop)

/-- `HIGH_SURROGATE`: `D800-DBFF`. -/
def isHighSurrogate4 (h1 h2 h3 h4 : Char) : Bool :=
  ((h1 = 'd' ∨ h1 = 'D') ∧ (h2 = '8' ∨ h2 = '9' ∨ h2 = 'a' ∨ h2 = 'A' ∨ h2 = 'b' ∨ h2 = 'B') ∧
      isHexDigitC h3 ∧ isHexDigitC h4 : Prop)

/-- `LOW_SURROGATE`: `DC00-DFFF`. -/
def isLowSurrogate4 (h1 h2 h3 h4 : Char) : Bool :=
  ((h1 = 'd' ∨ h1 = 'D') ∧
      (('c' ≤ h2 ∧ h2 ≤ 'f') ∨ ('C' ≤ h2 ∧ h2 ≤ 'F')) ∧
      isHexDigitC h3 ∧ isHexDigitC h4 : Prop)

/-- `UNESCAPED_CHAR`: `%x20-21 / %x23-26 / %x28-5B / %x5D-7F` or a
non-surrogate code point `≥ %x80` (i.e. anything `≥ %x20` except the two
quotes and the backslash). -/
def isUnescapedStrChar (c : Char) : Bool :=
  (0x20 ≤ c.val ∧ c ≠ '"' ∧ c ≠ '\'' ∧ c ≠ '\\' : Prop)

/-- A bare content character inside a `quote`-delimited literal:
`SINGLE_QUOTED` additionally allows `"` and `DOUBLE_QUOTED` allows `'`. -/
def isQuotedBareChar (quote c : Char) : Bool :=
  isUnescapedStrChar c ||
  ((quote = '\'' ∧ c = '"') ∨ (quote = '"' ∧ c = '\'') : Prop)

/-- Greedy match of `SINGLE_QUOTED*` / `DOUBLE_QUOTED*` (the regex group
`string_sq`/`string_dq`): consumed content and rest.  Escape sequences are
`\` + (`quote` | `b f n r t /` | `\` | `u` hex4 | `u` high `\u` low). -/
def matchQuoted (quote : Char) : List Char → List Char × List Char
  | [] => ([], [])
  | c :: rest =>
    if isQuotedBareChar quote c then
      let cr := matchQuoted quote rest
      (c :: cr.1, cr.2)
    else if c = '\\' then
      match rest with
      | [] => ([], ['\\'])
      | e :: rest1 =>
        if e = quote ∨ e = 'b' ∨ e = 'f' ∨ e = 'n' ∨ e = 'r' ∨ e = 't' ∨ e = '/' ∨ e = '\\' then
          let cr := matchQuoted quote rest1
          ('\\' :: e :: cr.1, cr.2)
        else if e = 'u' then
          match rest1 with
          | h1 :: h2 :: h3 :: h4 :: rest2 =>
            if isNonSurrogate4 h1 h2 h3 h4 then
              let cr := matchQuoted quote rest2
              ('\\' :: 'u' :: h1 :: h2 :: h3 :: h4 :: cr.1, cr.2)
            else if isHighSurrogate4 h1 h2 h3 h4 then
              match rest2 with
              | b1 :: u1 :: g1 :: g2 :: g3 :: g4 :: rest3 =>
                if b1 = '\\' ∧ u1 = 'u' ∧ isLowSurrogate4 g1 g2 g3 g4 then
                  let cr := matchQuoted quote rest3
                  ('\\' :: 'u' :: h1 :: h2 :: h3 :: h4 :: '\\' :: 'u' :: g1 :: g2 :: g3 :: g4 :: cr.1,
                   cr.2)
                else ([], c :: rest)
              | _ => ([], c :: rest)
            else ([], c :: rest)
          | _ => ([], c :: rest)
        else ([], c :: rest)
    else ([], c :: rest)

/-- `JPathLexer.match_string_literal`, entered with the opening quote `q`
already identified and consumed: greedily match content, then require a
quote character to close (the token value is built from the closing
quote, exactly as the source does); otherwise the unterminated-string
error. -/
def matchStringLit (q : Char) (rest : List Char) : Option (List Char × List Char) :=
  let cr := matchQuoted q rest
  match cr.2 with
  | c2 :: r2 => if c2 = '\'' ∨ c2 = '"' then some (c2 :: cr.1 ++ [c2], r2) else none
  | [] => none

/-- `SLICE_CHARS = "0123456789:-"`. -/
def isSliceChar (c : Char) : Bool := isDigitC c || c = ':' || c = '-'

/-- The no-start alternative of the slice head: `":"` alone. -/
def colonOnly : List Char → Option (List Char × List Char)
  | ':' :: r => some ([':'], r)
  | _ => none

/-- An optional `INT` group: the match if present, else the empty lexeme. -/
def intOrEmpty (l : List Char) : List Char × List Char :=
  match matchIntPrefix l with
  | some ir => ir
  | none => ([], l)

/-- The `(?:(?P<start>INT)SPACES)? ":"` head of `SLICE_SELECTOR` (if an
`INT` start is present but no colon follows it, the regex backtracks to the
no-start alternative, which requires the colon at the start). -/
def sliceHead (l : List Char) : Option (List Char × List Char) :=
  match matchIntPrefix l with
  | some ir =>
    match (takeSpaces ir.2).2 with
    | ':' :: r2 => some (ir.1 ++ (takeSpaces ir.2).1 ++ [':'], r2)
    | _ => colonOnly l
  | none => colonOnly l

/-- The remainder of `SLICE_SELECTOR` after the first colon:
`SPACES (?P<end>INT)? SPACES (?: ":" (?:SPACES (?P<step>INT))? )?`. -/
def sliceTail (r : List Char) : List Char × List Char :=
  match (takeSpaces (intOrEmpty (takeSpaces r).2).2).2 with
  | ':' :: r6 =>
    match matchIntPrefix (takeSpaces r6).2 with
    | some ir =>
      ((takeSpaces r).1 ++ (intOrEmpty (takeSpaces r).2).1 ++
        (takeSpaces (intOrEmpty (takeSpaces r).2).2).1 ++ [':'] ++ (takeSpaces r6).1 ++ ir.1,
       ir.2)
    | none =>
      ((takeSpaces r).1 ++ (intOrEmpty (takeSpaces r).2).1 ++
        (takeSpaces (intOrEmpty (takeSpaces r).2).2).1 ++ [':'], r6)
  | _ =>
    ((takeSpaces r).1 ++ (intOrEmpty (takeSpaces r).2).1 ++
      (takeSpaces (intOrEmpty (takeSpaces r).2).2).1,
     (takeSpaces (intOrEmpty (takeSpaces r).2).2).2)

/-- `JPathLexer.match_slice_selector` (regex `SLICE_SELECTOR`): the whole
slice lexeme (one `SLICE` token) and the rest. -/
def matchSliceTok (l : List Char) : Option (List Char × List Char) :=
  match sliceHead l with
  | none => none
  | some ar =>
    let t := sliceTail ar.2
    some (ar.1 ++ t.1, t.2)

/-! ### Every matcher consumes input: the loop advances. -/

theorem takeSpaces_length (l : List Char) : (takeSpaces l).2.length ≤ l.length := by
  induction l with
  | nil => simp [takeSpaces]
  | cons c rest ih =>
    simp only [takeSpaces]
    split
    · simpa using Nat.le_succ_of_le ih
    · simp

theorem takeSpaces_cons_blank (c : Char) (rest : List Char) (h : isBlankChar c = true) :
    (takeSpaces (c :: rest)).2.length < (c :: rest).length := by
  simp only [takeSpaces, if_pos h]
  have := takeSpaces_length rest
  simp at this ⊢
  omega

theorem takeNameChars_length (l : List Char) : (takeNameChars l).2.length ≤ l.length := by
  induction l with
  | nil => simp [takeNameChars]
  | cons c rest ih =>
    simp only [takeNameChars]
    split
    · simpa using Nat.le_succ_of_le ih
    · simp

/-- `peek_next_chars(2)` recognition of a two-character operator. -/
def twoCharLex (c : Char) (rest : List Char) : Option (TokType × Char × List Char) :=
  match rest with
  | c2 :: rest2 => (twoCharTok c c2).map fun tt => (tt, c2, rest2)
  | [] => none

theorem twoCharLex_length (c : Char) (rest : List Char) (x : TokType × Char × List Char)
    (h : twoCharLex c rest = some x) : x.2.2.length < rest.length := by
  cases rest with
  | nil => cases h
  | cons c2 rest2 =>
    simp only [twoCharLex, Option.map_eq_some'] at h
    obtain ⟨tt, -, rfl⟩ := h
    simp

theorem matchName_length (l : List Char) (nr : List Char × TokType × List Char)
    (h : matchName l = some nr) : nr.2.2.length < l.length := by
  cases l with
  | nil => cases h
  | cons c rest =>
    simp only [matchName] at h
    split at h
    · cases h
      have := takeNameChars_length rest
      simp at this ⊢
      omega
    · cases h

theorem matchIntPrefix_length (l : List Char) (ir : List Char × List Char)
    (h : matchIntPrefix l = some ir) : ir.2.length < l.length := by
  cases l with
  | nil => cases h
  | cons c rest =>
    simp only [matchIntPrefix] at h
    split at h
    · cases h; simp
    · split at h
      · cases rest with
        | nil => cases h
        | cons d rest2 =>
          simp only [] at h
          split at h
          · cases h
            have := takeDigits_length rest2
            simp at this ⊢
            omega
          · cases h
      · split at h
        · cases h
          have := takeDigits_length rest
          simp at this ⊢
          omega
        · cases h

theorem matchQuoted_length (q : Char) :
    ∀ l : List Char, (matchQuoted q l).2.length ≤ l.length := by
  have main : ∀ (n : Nat) (l : List Char), l.length ≤ n →
      (matchQuoted q l).2.length ≤ l.length := by
    intro n
    induction n with
    | zero =>
      intro l hl
      cases l with
      | nil => simp [matchQuoted]
      | cons c rest => simp at hl
    | succ n ih =>
      intro l hl
      cases l with
      | nil => simp [matchQuoted]
      | cons c rest =>
        rw [matchQuoted.eq_def]
        simp only []
        split
        · have := ih rest (by simp at hl; omega)
          simp at this ⊢
          omega
        · split
          · split
            · simp
            · next e rest1 =>
              split
              · have := ih rest1 (by simp at hl; omega)
                simp at this ⊢
                omega
              · split
                · split
                  · next h1 h2 h3 h4 rest2 =>
                    split
                    · have := ih rest2 (by simp at hl; omega)
                      simp at this ⊢
                      omega
                    · split
                      · split
                        · next b1 u1 g1 g2 g3 g4 rest3 =>
                          split
                          · have := ih rest3 (by simp at hl; omega)
                            simp at this ⊢
                            omega
                          · simp
                        · simp
                      · simp
                  · simp
                · simp
          · simp
  exact fun l => main l.length l le_rfl

theorem matchStringLit_length (q : Char) (rest : List Char) (vr : List Char × List Char)
    (h : matchStringLit q rest = some vr) : vr.2.length < rest.length := by
  simp only [matchStringLit] at h
  have hq := matchQuoted_length q rest
  split at h
  · next c2 r2 heq =>
    split at h
    · cases h
      rw [heq] at hq
      simp at hq ⊢
      omega
    · cases h
  · cases h

theorem colonOnly_length (l : List Char) (ar : List Char × List Char)
    (h : colonOnly l = some ar) : ar.2.length < l.length := by
  rw [colonOnly.eq_def] at h
  split at h
  · injection h with h'
    subst h'
    simp
  · cases h

theorem intOrEmpty_length (l : List Char) : (intOrEmpty l).2.length ≤ l.length := by
  simp only [intOrEmpty]
  split
  · next ir hir => exact le_of_lt (matchIntPrefix_length l ir hir)
  · simp

theorem sliceHead_length (l : List Char) (ar : List Char × List Char)
    (h : sliceHead l = some ar) : ar.2.length < l.length := by
  simp only [sliceHead] at h
  split at h
  · next ir hir =>
    have h1 := matchIntPrefix_length l ir hir
    have h2 := takeSpaces_length ir.2
    split at h
    · next r2 heq =>
      injection h with h'
      subst h'
      rw [heq] at h2
      simp at h2 ⊢
      omega
    · exact colonOnly_length l ar h
  · exact colonOnly_length l ar h

theorem sliceTail_length (r : List Char) : (sliceTail r).2.length ≤ r.length := by
  have h2 := takeSpaces_length r
  have h3 := intOrEmpty_length (takeSpaces r).2
  have h4 := takeSpaces_length (intOrEmpty (takeSpaces r).2).2
  simp only [sliceTail]
  split
  · next r6 heq =>
    rw [heq] at h4
    simp only [List.length_cons] at h4
    have h5 := takeSpaces_length r6
    split
    · next ir hir =>
      have h6 := matchIntPrefix_length (takeSpaces r6).2 ir hir
      simp only []
      omega
    · simp only []
      omega
  · simp only []
    omega

theorem matchSliceTok_length (l : List Char) (sr : List Char × List Char)
    (h : matchSliceTok l = some sr) : sr.2.length < l.length := by
  simp only [matchSliceTok] at h
  split at h
  · cases h
  · next ar har =>
    injection h with h'
    subst h'
    have h1 := sliceHead_length l ar har
    have h2 := sliceTail_length ar.2
    simp only []
    omega

theorem matchFrac_length (l : List Char) : (matchFrac l).2.length ≤ l.length := by
  rw [matchFrac.eq_def]
  split
  · next c rest =>
    split
    · have := takeDigits_length (c :: rest)
      simp at this ⊢
      omega
    · simp
  · simp

theorem matchExp_length (l : List Char) : (matchExp l).2.length ≤ l.length := by
  rw [matchExp.eq_def]
  split
  · next e rest =>
    split
    · split
      · next s rest2 =>
        split
        · split
          · next d rest3 =>
            split
            · have := takeDigits_length (d :: rest3)
              simp at this ⊢
              omega
            · simp
          · simp
        · split
          · have := takeDigits_length (s :: rest2)
            simp at this ⊢
            omega
          · simp
      · simp
    · simp
  · simp

theorem matchIntPart_length (l : List Char) (ir : List Char × List Char)
    (h : matchIntPart l = some ir) : ir.2.length < l.length := by
  simp only [matchIntPart] at h
  split at h
  · next r hr =>
    injection h with h'
    subst h'
    exact matchIntPrefix_length l r hr
  · split at h
    · injection h with h'
      subst h'
      simp
      omega
    · cases h

theorem matchNumber_length (l : List Char) (mr : List Char × TokType × List Char)
    (h : matchNumber l = some mr) : mr.2.2.length < l.length := by
  simp only [matchNumber] at h
  split at h
  · cases h
  · next ip r1 hip =>
    cases h
    have h1 := matchIntPart_length l (ip, r1) hip
    have h2 := matchFrac_length r1
    have h3 := matchExp_length (matchFrac r1).2
    simp at h1 ⊢
    omega

/-- The slice branch of the loop: attempted only when the current character
is in `SLICE_CHARS`. -/
def sliceGuard (c : Char) (l : List Char) : Option (List Char × List Char) :=
  if isSliceChar c then matchSliceTok l else none

theorem sliceGuard_length (c : Char) (l : List Char) (sr : List Char × List Char)
    (h : sliceGuard c l = some sr) : sr.2.length < l.length := by
  simp only [sliceGuard] at h
  split at h
  · exact matchSliceTok_length l sr h
  · cases h

/-- The number branch of the loop: attempted only when the current
character is a digit or `-`. -/
def numberGuard (c : Char) (l : List Char) : Option (List Char × TokType × List Char) :=
  if isDigitC c || c = '-' then matchNumber l else none

theorem numberGuard_length (c : Char) (l : List Char) (mr : List Char × TokType × List Char)
    (h : numberGuard c l = some mr) : mr.2.2.length < l.length := by
  simp only [numberGuard] at h
  split at h
  · exact matchNumber_length l mr h
  · cases h

/-- Prepend a token to a `tokenize` result (the `advance_token` append,
seen from the head of the recursion). -/
def consTok (t : Tok) (p : List Tok × Option LexErr) : List Tok × Option LexErr :=
  (t :: p.1, p.2)

/-- `JPathLexer.tokenize`: the scanning loop.  On success a single `EOF`
token is appended after the loop; the two failure paths return immediately
(the illegal character after appending its `UNKNOWN` token, the
unterminated string literal with no extra token). -/
def tokenize (l : List Char) : List Tok × Option LexErr :=
  match l with
  | [] => ([(TokType.eof, [])], none)
  | c :: rest =>
    if hb : isBlankChar c then
      tokenize (takeSpaces (c :: rest)).2
    else
      match h2 : twoCharLex c rest with
      | some x => consTok (x.1, [c, x.2.1]) (tokenize x.2.2)
      | none =>
        match singleCharTok c with
        | some tt => consTok (tt, [c]) (tokenize rest)
        | none =>
          match h4 : matchName (c :: rest) with
          | some nr => consTok (nr.2.1, nr.1) (tokenize nr.2.2)
          | none =>
            if c = '\'' ∨ c = '"' then
              match h5 : matchStringLit c rest with
              | some vr => consTok (TokType.string, vr.1) (tokenize vr.2)
              | none => ([], some LexErr.unterminatedString)
            else
              match h6 : sliceGuard c (c :: rest) with
              | some sr => consTok (TokType.slice, sr.1) (tokenize sr.2)
              | none =>
                match h7 : numberGuard c (c :: rest) with
                | some mr => consTok (mr.2.1, mr.1) (tokenize mr.2.2)
                | none => ([(TokType.unknown, [c])], some LexErr.illegalChar)
termination_by l.length
decreasing_by
  · exact takeSpaces_cons_blank c rest hb
  · have := twoCharLex_length c rest x h2
    simp
    omega
  · simp
  · exact matchName_length _ nr h4
  · have := matchStringLit_length c rest vr h5
    simp
    omega
  · exact sliceGuard_length c _ sr h6
  · exact numberGuard_length c _ mr h7

/-! ### No token appended by the scanning loop is `EOF` -/

theorem twoCharTok_ne_eof (c1 c2 : Char) (tt : TokType) (h : twoCharTok c1 c2 = some tt) :
    tt ≠ TokType.eof := by
  simp only [twoCharTok, Option.map_eq_some'] at h
  obtain ⟨p, hp, rfl⟩ := h
  have hall : ∀ q ∈ twoCharTable, q.2 ≠ TokType.eof := by decide
  exact hall p (List.mem_of_find?_eq_some hp)

theorem twoCharLex_ne_eof (c : Char) (rest : List Char) (x : TokType × Char × List Char)
    (h : twoCharLex c rest = some x) : x.1 ≠ TokType.eof := by
  cases rest with
  | nil => cases h
  | cons c2 rest2 =>
    simp only [twoCharLex, Option.map_eq_some'] at h
    obtain ⟨tt, htt, rfl⟩ := h
    exact twoCharTok_ne_eof c c2 tt htt

theorem singleCharTok_ne_eof (c : Char) (tt : TokType) (h : singleCharTok c = some tt) :
    tt ≠ TokType.eof := by
  simp only [singleCharTok, Option.map_eq_some'] at h
  obtain ⟨p, hp, rfl⟩ := h
  have hall : ∀ q ∈ singleCharTable, q.2 ≠ TokType.eof := by decide
  exact hall p (List.mem_of_find?_eq_some hp)

theorem keywordOr_ne_eof (l : List Char) : keywordOr l ≠ TokType.eof := by
  rw [keywordOr.eq_def]
  split
  · simp
  · split
    · simp
    · split
      · simp
      · simp

theorem matchName_ne_eof (l : List Char) (nr : List Char × TokType × List Char)
    (h : matchName l = some nr) : nr.2.1 ≠ TokType.eof := by
  cases l with
  | nil => cases h
  | cons c rest =>
    simp only [matchName] at h
    split at h
    · injection h with h'
      subst h'
      exact keywordOr_ne_eof _
    · cases h

theorem matchNumber_ne_eof (l : List Char) (mr : List Char × TokType × List Char)
    (h : matchNumber l = some mr) : mr.2.1 ≠ TokType.eof := by
  simp only [matchNumber] at h
  split at h
  · cases h
  · next ip r1 hip =>
    injection h with h'
    subst h'
    dsimp only
    split <;> simp

theorem numberGuard_ne_eof (c : Char) (l : List Char) (mr : List Char × TokType × List Char)
    (h : numberGuard c l = some mr) : mr.2.1 ≠ TokType.eof := by
  simp only [numberGuard] at h
  split at h
  · exact matchNumber_ne_eof l mr h
  · cases h

/-- The invariant of the scanning loop's output: on success the token list
is an `EOF`-free prefix followed by exactly one trailing `EOF` token; on a
lexer error no `EOF` token is present at all. -/
def TokProp (p : List Tok × Option LexErr) : Prop :=
  (p.2 = none → ∃ ts, p.1 = ts ++ [(TokType.eof, ([] : List Char))] ∧
    ∀ t ∈ ts, t.1 ≠ TokType.eof) ∧
  (p.2 ≠ none → ∀ t ∈ p.1, t.1 ≠ TokType.eof)

theorem consTok_prop (t : Tok) (p : List Tok × Option LexErr)
    (ht : t.1 ≠ TokType.eof) (hp : TokProp p) : TokProp (consTok t p) := by
  obtain ⟨h1, h2⟩ := hp
  constructor
  · intro he
    obtain ⟨ts, hts, hall⟩ := h1 he
    refine ⟨t :: ts, by simp [consTok, hts], ?_⟩
    intro u hu
    rcases List.mem_cons.mp hu with rfl | hu
    · exact ht
    · exact hall u hu
  · intro he u hu
    rcases List.mem_cons.mp hu with rfl | hu
    · exact ht
    · exact h2 he u hu

theorem tokenize_prop (n : Nat) : ∀ l : List Char, l.length ≤ n → TokProp (tokenize l) := by
  induction n with
  | zero =>
    intro l hl
    have hnil : l = [] := List.eq_nil_of_length_eq_zero (Nat.le_zero.mp hl)
    subst hnil
    rw [tokenize.eq_def]
    exact ⟨fun _ => ⟨[], rfl, by simp⟩, fun he => absurd rfl he⟩
  | succ n ih =>
    intro l hl
    rw [tokenize.eq_def]
    split
    · exact ⟨fun _ => ⟨[], rfl, by simp⟩, fun he => absurd rfl he⟩
    · next c rest =>
      simp only [List.length_cons] at hl
      split
      · next hb =>
        exact ih _ (by have := takeSpaces_cons_blank c rest hb; simp at this; omega)
      · split
        · next x h2 =>
          exact consTok_prop _ _ (twoCharLex_ne_eof c rest x h2)
            (ih _ (by have := twoCharLex_length c rest x h2; omega))
        · split
          · next tt heq =>
            exact consTok_prop _ _ (singleCharTok_ne_eof c tt heq) (ih rest (by omega))
          · split
            · next nr h4 =>
              exact consTok_prop _ _ (matchName_ne_eof _ nr h4)
                (ih _ (by have := matchName_length _ nr h4; simp at this; omega))
            · split
              · split
                · next vr h5 =>
                  exact consTok_prop _ _ (by simp) (ih _
                    (by have := matchStringLit_length c rest vr h5; omega))
                · exact ⟨fun he => by simp at he, fun _ u hu => by simp at hu⟩
              · split
                · next sr h6 =>
                  exact consTok_prop _ _ (by simp) (ih _
                    (by have := sliceGuard_length c _ sr h6; simp at this; omega))
                · split
                  · next mr h7 =>
                    exact consTok_prop _ _ (numberGuard_ne_eof c _ mr h7) (ih _
                      (by have := numberGuard_length c _ mr h7; simp at this; omega))
                  · refine ⟨fun he => by simp at he, fun _ u hu => ?_⟩
                    simp at hu
                    subst hu
                    simp

/-- C10.  For every input, `tokenize` returns no error exactly when its
token list ends with an `EOF` token: on success the list is an `EOF`-free
prefix followed by exactly one trailing `EOF` token, while on a lexer error
(illegal character or unterminated string literal) the method returns the
tokens lexed so far with no `EOF` token anywhere. -/
theorem tokenize_eof_iff : ∀ l : List Char,
    ((tokenize l).2 = none ↔ (tokenize l).1.getLast? = some (TokType.eof, ([] : List Char))) ∧
    ((tokenize l).2 = none → ∃ ts, (tokenize l).1 = ts ++ [(TokType.eof, ([] : List Char))] ∧
      ∀ t ∈ ts, t.1 ≠ TokType.eof) ∧
    ((tokenize l).2 ≠ none → ∀ t ∈ (tokenize l).1, t.1 ≠ TokType.eof) := by
  intro l
  obtain ⟨h1, h2⟩ := tokenize_prop l.length l le_rfl
  refine ⟨⟨?_, ?_⟩, h1, h2⟩
  · intro he
    obtain ⟨ts, hts, -⟩ := h1 he
    rw [hts]
    exact List.getLast?_concat ts
  · intro hg
    by_contra hne
    exact h2 hne _ (List.mem_of_mem_getLast? hg) rfl

/-! ## The descendant segment on shared and cyclic data (C1)
(`JPathEvaluator._collect_vnodes_and_their_descendants`,
`JPathEvaluator._children_of`, `JPathEvaluator.visit_DescendantSegment`)

Cyclic JSON values cannot be modelled as trees, so this section uses a
heap embedding: a store maps references (playing the role of CPython
`id()`) to values whose children are references.  A node of the evaluator
is a normalized path together with the reference of its value. -/

/-- A stored JSON value: a primitive, an array of element references, or
an object of named member references. -/
inductive HVal : Type where
  | prim : HVal
  | arr : List Nat → HVal
  | obj : List (String × Nat) → HVal
deriving Repr, DecidableEq

/-- `VNode`, heap view: the normalized path and the `id()` of the value. -/
structure HNode where
  path : String
  ref : Nat
deriving Repr, DecidableEq

/-- The child references of a value (array elements in order; object
member values in insertion order). -/
def vChildRefs : HVal → List Nat
  | .prim => []
  | .arr refs => refs
  | .obj mems => mems.map Prod.snd

/-- The child references of the value stored at `r`. -/
def childRefs (store : List (Nat × HVal)) (r : Nat) : List Nat :=
  match store.lookup r with
  | some v => vChildRefs v
  | none => []

/-- The child nodes of a value under `path` (the `enumerate`/`items` loop
bodies shared by `_collect_vnodes_and_their_descendants` and
`_children_of`, with their `f"{jpath}[{index}]"` / `f"{jpath}['{name}']"`
paths). -/
def childNodes (path : String) : HVal → List HNode
  | .prim => []
  | .arr refs => refs.enum.map fun p => ⟨mkIdxPath path (p.1 : Int), p.2⟩
  | .obj mems => mems.map fun m => ⟨mkNamePath path m.1, m.2⟩

/-- The output of one BFS level: nodes collected, the updated
`instance_ids` key list, the next level's queue, the cycle-warning count
and the depth-warning count. -/
structure LevelOut where
  collected : List HNode
  seen : List Nat
  next : List (HNode × Nat)
  cW : Nat
  dW : Nat
deriving Repr

/-- Process one BFS level of `_collect_vnodes_and_their_descendants` in
FIFO order: a primitive is skipped; a container at `depth ≥ max_depth`
logs a depth warning and is neither collected nor expanded; a container
whose reference is already in `instance_ids` logs a cycle warning and is
skipped; otherwise the node's reference is recorded, the node is
collected, and its children are queued for the next level. -/
def procLevel (store : List (Nat × HVal)) (maxDepth : Nat) :
    List (HNode × Nat) → List Nat → LevelOut
  | [], seen => ⟨[], seen, [], 0, 0⟩
  | (n, d) :: rest, seen =>
    match store.lookup n.ref with
    | none => procLevel store maxDepth rest seen
    | some v =>
      if v = HVal.prim then procLevel store maxDepth rest seen
      else if maxDepth ≤ d then
        let o := procLevel store maxDepth rest seen
        ⟨o.collected, o.seen, o.next, o.cW, o.dW + 1⟩
      else if n.ref ∈ seen then
        let o := procLevel store maxDepth rest seen
        ⟨o.collected, o.seen, o.next, o.cW + 1, o.dW⟩
      else
        let o := procLevel store maxDepth rest (n.ref :: seen)
        ⟨n :: o.collected, o.seen,
         (childNodes n.path v).map (fun c => (c, d + 1)) ++ o.next, o.cW, o.dW⟩

/-- The BFS while-loop of `_collect_vnodes_and_their_descendants`, level
by level; `fuel` bounds the number of levels.  Returns the collected
nodes with the cycle- and depth-warning counts. -/
def bfsLevels (store : List (Nat × HVal)) (maxDepth : Nat) :
    Nat → List (HNode × Nat) → List Nat → List HNode × Nat × Nat
  | 0, _, _ => ([], 0, 0)
  | fuel + 1, q, seen =>
    let o := procLevel store maxDepth q seen
    let r := bfsLevels store maxDepth fuel o.next o.seen
    (o.collected ++ r.1, o.cW + r.2.1, o.dW + r.2.2)

/-- `_collect_vnodes_and_their_descendants(initial_vnode)` with its
default `max_depth = 32`.  34 levels are a fixpoint of the while-loop:
containers at the depth cap are not expanded, so the queue of level 33 is
already empty (`bfsLevels_fuel` below). -/
def collectDesc (store : List (Nat × HVal)) (root : HNode) :
    List HNode × Nat × Nat :=
  bfsLevels store 32 34 [(root, 0)] []

/-- `JPathEvaluator._children_of`: the children of `parent`, except that
a child that is the very same instance as its parent (`id()` equality) is
skipped with a cycle warning.  Returns the children and the number of
such warnings. -/
def childrenOfH (store : List (Nat × HVal)) (parent : HNode) :
    List HNode × Nat :=
  match store.lookup parent.ref with
  | none => ([], 0)
  | some v =>
    ((childNodes parent.path v).filter (fun c => c.ref ≠ parent.ref),
     ((childNodes parent.path v).filter (fun c => c.ref = parent.ref)).length)

/-- The selector-application stage of `visit_DescendantSegment` for the
single wildcard selector of `$..*` / `$..[*]`: for each collected node
`di` in order, record `id(di.jvalue)` in `instance_ids` first, apply the
wildcard selector (`_children_of`), and keep only the output nodes whose
reference is not in `instance_ids`.  Returns the emitted nodes and the
number of `_children_of` cycle warnings. -/
def applySelectors (store : List (Nat × HVal)) :
    List HNode → List Nat → List HNode × Nat
  | [], _ => ([], 0)
  | di :: rest, seen =>
    let ch := childrenOfH store di
    let keep := ch.1.filter (fun c => c.ref ∉ di.ref :: seen)
    let r := applySelectors store rest (di.ref :: seen)
    (keep ++ r.1, ch.2 + r.2)

/-- `visit_DescendantSegment` for the query `$..[*]` (equally `$..*`) on
a single root node: collect the root and its descendants breadth-first,
then apply the wildcard selector to each collected node in order.
Returns the result nodelist, the collection-stage cycle-warning and
depth-warning counts, and the `_children_of` warning count. -/
def descWildcard (store : List (Nat × HVal)) (root : HNode) :
    List HNode × Nat × Nat × Nat :=
  let col := collectDesc store root
  let ap := applySelectors store col.1 []
  (ap.1, col.2.1, col.2.2, ap.2)

/-- A root object whose members `a` and `b` are the same array, which in
turn contains the root:  `root = {"a": arr, "b": arr}`, `arr = [root]`. -/
def exStore : List (Nat × HVal) :=
  [(0, HVal.obj [("a", 1), ("b", 1)]), (1, HVal.arr [0])]

/-- S7's root: a map `m` with `m["self"] = m`. -/
def selfStore : List (Nat × HVal) := [(0, HVal.obj [("self", 0)])]

/-- C1 counterexample.  On the root `{"a": arr, "b": arr}` with
`arr = [root]` — so the array refers to its ancestor, the root — the
query `$..[*]` emits the cyclic array (reference `1`) twice, at `$['a']`
and at `$['b']`; "the cyclic container node is emitted at most once in
the result nodelist" fails on this input (the traversal does terminate
and does emit cycle warnings). -/
theorem descendant_cycle_counterexample :
    (1 ∈ childRefs exStore 0 ∧ 0 ∈ childRefs exStore 1) ∧
    (descWildcard exStore ⟨"$", 0⟩).1 =
      [⟨mkNamePath "$" "a", 1⟩, ⟨mkNamePath "$" "b", 1⟩] ∧
    ((descWildcard exStore ⟨"$", 0⟩).1.map HNode.ref).count 1 = 2 ∧
    (descWildcard exStore ⟨"$", 0⟩).2.1 = 2 :=
  ⟨by decide, by rfl, by decide, by rfl⟩

/-! ### Structure of the BFS -/

theorem childNodes_refs (p : String) (v : HVal) :
    (childNodes p v).map HNode.ref = vChildRefs v := by
  cases v with
  | prim => rfl
  | arr refs =>
    simp only [childNodes, vChildRefs, List.map_map]
    exact List.enum_map_snd refs
  | obj mems => simp [childNodes, vChildRefs]

theorem childRefs_elim (store : List (Nat × HVal)) (r r' : Nat)
    (h : r' ∈ childRefs store r) :
    ∃ v, store.lookup r = some v ∧ v ≠ HVal.prim ∧ r' ∈ vChildRefs v := by
  simp only [childRefs] at h
  split at h
  · next v hv =>
    refine ⟨v, hv, ?_, h⟩
    intro hp
    subst hp
    simp [vChildRefs] at h
  · cases h

theorem procLevel_next_depth (store : List (Nat × HVal)) (maxDepth : Nat)
    (q : List (HNode × Nat)) (d : Nat) :
    ∀ seen, (∀ x ∈ q, x.2 = d) →
      ∀ y ∈ (procLevel store maxDepth q seen).next, y.2 = d + 1 := by
  induction q with
  | nil => intro seen _ y hy; simp [procLevel] at hy
  | cons hd rest ih =>
    intro seen hq y hy
    obtain ⟨n, dd⟩ := hd
    have hdd : d = dd := (hq (n, dd) (by simp)).symm
    subst hdd
    have hrest : ∀ x ∈ rest, x.2 = d := fun x hx => hq x (by simp [hx])
    simp only [procLevel] at hy
    split at hy
    · exact ih seen hrest y hy
    · split at hy
      · exact ih seen hrest y hy
      · split at hy
        · exact ih seen hrest y hy
        · split at hy
          · exact ih seen hrest y hy
          · simp only [LevelOut.next] at hy
            rcases List.mem_append.mp hy with hy | hy
            · obtain ⟨c, -, rfl⟩ := List.mem_map.mp hy
              rfl
            · exact ih _ hrest y hy

theorem procLevel_next_empty (store : List (Nat × HVal)) (maxDepth : Nat)
    (q : List (HNode × Nat)) :
    ∀ seen, (∀ x ∈ q, maxDepth ≤ x.2) →
      (procLevel store maxDepth q seen).next = [] := by
  induction q with
  | nil => intro seen _; rfl
  | cons hd rest ih =>
    intro seen hq
    obtain ⟨n, dd⟩ := hd
    have hdd : maxDepth ≤ dd := hq (n, dd) (by simp)
    have hrest : ∀ x ∈ rest, maxDepth ≤ x.2 := fun x hx => hq x (by simp [hx])
    simp only [procLevel]
    split
    · exact ih seen hrest
    · split
      · exact ih seen hrest
      · exact ih seen hrest

theorem bfsLevels_nil (store : List (Nat × HVal)) (maxDepth : Nat) :
    ∀ fuel seen, bfsLevels store maxDepth fuel [] seen = ([], 0, 0) := by
  intro fuel
  induction fuel with
  | zero => intro seen; rfl
  | succ fuel ih =>
    intro seen
    simp only [bfsLevels]
    rw [show procLevel store maxDepth [] seen = ⟨[], seen, [], 0, 0⟩ from rfl]
    simp [ih]

theorem bfsLevels_fuel (store : List (Nat × HVal)) (maxDepth : Nat) :
    ∀ k f1 f2 q seen, 1 ≤ k → k ≤ maxDepth + 1 →
      (∀ x ∈ q, x.2 + k = maxDepth + 1) → k ≤ f1 → k ≤ f2 →
      bfsLevels store maxDepth f1 q seen = bfsLevels store maxDepth f2 q seen := by
  intro k
  induction k with
  | zero => intro f1 f2 q seen h1; exact absurd h1 (by omega)
  | succ k ih =>
    intro f1 f2 q seen _ hkm hq hf1 hf2
    obtain ⟨f1, rfl⟩ : ∃ m, f1 = m + 1 := ⟨f1 - 1, by omega⟩
    obtain ⟨f2, rfl⟩ : ∃ m, f2 = m + 1 := ⟨f2 - 1, by omega⟩
    simp only [bfsLevels]
    rcases Nat.eq_zero_or_pos k with hk0 | hk1
    · subst hk0
      have hnext : (procLevel store maxDepth q seen).next = [] :=
        procLevel_next_empty store maxDepth q seen (fun x hx => by have := hq x hx; omega)
      rw [hnext, bfsLevels_nil, bfsLevels_nil]
    · have huni : ∀ x ∈ q, x.2 = maxDepth - k := fun x hx => by have := hq x hx; omega
      have hnd := procLevel_next_depth store maxDepth q (maxDepth - k) seen huni
      have heq := ih f1 f2 (procLevel store maxDepth q seen).next
        (procLevel store maxDepth q seen).seen hk1 (by omega)
        (fun y hy => by have := hnd y hy; omega) (by omega) (by omega)
      rw [heq]

/-! ### Base nodes are collected at most once -/

theorem procLevel_seen_eq (store : List (Nat × HVal)) (maxDepth : Nat)
    (q : List (HNode × Nat)) :
    ∀ seen, (procLevel store maxDepth q seen).seen =
      ((procLevel store maxDepth q seen).collected.map HNode.ref).reverse ++ seen := by
  induction q with
  | nil => intro seen; rfl
  | cons hd rest ih =>
    intro seen
    obtain ⟨n, dd⟩ := hd
    simp only [procLevel]
    split
    · exact ih seen
    · split
      · exact ih seen
      · split
        · exact ih seen
        · split
          · exact ih seen
          · show (procLevel store maxDepth rest (n.ref :: seen)).seen = _
            rw [ih (n.ref :: seen)]
            simp

theorem procLevel_seen_nodup (store : List (Nat × HVal)) (maxDepth : Nat)
    (q : List (HNode × Nat)) :
    ∀ seen, seen.Nodup → (procLevel store maxDepth q seen).seen.Nodup := by
  induction q with
  | nil => intro seen h; exact h
  | cons hd rest ih =>
    intro seen h
    obtain ⟨n, dd⟩ := hd
    simp only [procLevel]
    split
    · exact ih seen h
    · split
      · exact ih seen h
      · split
        · exact ih seen h
        · split
          · exact ih seen h
          · next hmem =>
            exact ih (n.ref :: seen) (List.nodup_cons.mpr ⟨hmem, h⟩)

theorem bfsLevels_nodup (store : List (Nat × HVal)) (maxDepth : Nat) :
    ∀ fuel q seen, seen.Nodup →
      ((bfsLevels store maxDepth fuel q seen).1.map HNode.ref).Nodup ∧
      ∀ r ∈ (bfsLevels store maxDepth fuel q seen).1.map HNode.ref, r ∉ seen := by
  intro fuel
  induction fuel with
  | zero => intro q seen _; exact ⟨List.nodup_nil, by simp [bfsLevels]⟩
  | succ fuel ih =>
    intro q seen h
    simp only [bfsLevels]
    have hseq := procLevel_seen_eq store maxDepth q seen
    have hnod := procLevel_seen_nodup store maxDepth q seen h
    rw [hseq, List.nodup_append] at hnod
    have h1 : ((procLevel store maxDepth q seen).collected.map HNode.ref).Nodup :=
      List.nodup_reverse.mp hnod.1
    have hdisj : ∀ r ∈ (procLevel store maxDepth q seen).collected.map HNode.ref,
        r ∉ seen :=
      fun r hr hs => hnod.2.2 (List.mem_reverse.mpr hr) hs
    obtain ⟨ih1, ih2⟩ := ih (procLevel store maxDepth q seen).next
      (procLevel store maxDepth q seen).seen (procLevel_seen_nodup store maxDepth q seen h)
    constructor
    · simp only [List.map_append]
      rw [List.nodup_append]
      refine ⟨h1, ih1, ?_⟩
      intro a ha hb
      have hno := ih2 a hb
      rw [hseq] at hno
      exact hno (List.mem_append.mpr (.inl (List.mem_reverse.mpr ha)))
    · simp only [List.map_append]
      intro r hr
      rcases List.mem_append.mp hr with hr | hr
      · exact hdisj r hr
      · have hno := ih2 r hr
        rw [hseq] at hno
        exact fun hs => hno (List.mem_append.mpr (.inr hs))

/-! ### A cycle forces a warning -/

theorem procLevel_depth_warn (store : List (Nat × HVal)) (maxDepth : Nat)
    (q : List (HNode × Nat)) :
    ∀ seen n d, (n, d) ∈ q → maxDepth ≤ d →
      (∃ v, store.lookup n.ref = some v ∧ v ≠ HVal.prim) →
      1 ≤ (procLevel store maxDepth q seen).dW := by
  induction q with
  | nil => intro seen n d hmem; exact absurd hmem (List.not_mem_nil _)
  | cons hd rest ih =>
    intro seen n d hmem hd32 hcont
    obtain ⟨m, dd⟩ := hd
    simp only [procLevel]
    rcases List.mem_cons.mp hmem with heq | hmem
    · injection heq with h1 h2
      subst h1
      subst h2
      obtain ⟨v, hv, hvp⟩ := hcont
      simp only [hv]
      rw [if_neg hvp, if_pos hd32]
      simp
    · split
      · exact ih seen n d hmem hd32 hcont
      · split
        · exact ih seen n d hmem hd32 hcont
        · split
          · simp only [LevelOut.dW]
            have := ih seen n d hmem hd32 hcont
            omega
          · split
            · simp only [LevelOut.dW]
              exact ih seen n d hmem hd32 hcont
            · simp only [LevelOut.dW]
              exact ih (m.ref :: seen) n d hmem hd32 hcont

theorem procLevel_step (store : List (Nat × HVal)) (maxDepth : Nat)
    (q : List (HNode × Nat)) :
    ∀ seen n d v, (n, d) ∈ q → d < maxDepth →
      store.lookup n.ref = some v → v ≠ HVal.prim →
      1 ≤ (procLevel store maxDepth q seen).cW ∨
      ∀ c ∈ childNodes n.path v,
        (c, d + 1) ∈ (procLevel store maxDepth q seen).next := by
  induction q with
  | nil => intro seen n d v hmem; exact absurd hmem (List.not_mem_nil _)
  | cons hd rest ih =>
    intro seen n d v hmem hdlt hv hvp
    obtain ⟨m, dd⟩ := hd
    rcases List.mem_cons.mp hmem with heq | hmem
    · injection heq with h1 h2
      subst h1
      subst h2
      simp only [procLevel]
      simp only [hv]
      rw [if_neg hvp, if_neg (by omega : ¬maxDepth ≤ d)]
      by_cases hseen : n.ref ∈ seen
      · rw [if_pos hseen]
        left
        simp
      · rw [if_neg hseen]
        right
        intro c hc
        simp only [LevelOut.next]
        exact List.mem_append.mpr (.inl (List.mem_map.mpr ⟨c, hc, rfl⟩))
    · simp only [procLevel]
      split
      · exact ih seen n d v hmem hdlt hv hvp
      · split
        · exact ih seen n d v hmem hdlt hv hvp
        · split
          · exact ih seen n d v hmem hdlt hv hvp
          · split
            · rcases ih seen n d v hmem hdlt hv hvp with hc | hnext
              · left
                simp only [LevelOut.cW]
                omega
              · right
                exact hnext
            · rcases ih (m.ref :: seen) n d v hmem hdlt hv hvp with hc | hnext
              · left
                exact hc
              · right
                intro c hc
                simp only [LevelOut.next]
                exact List.mem_append.mpr (.inr (hnext c hc))

theorem bfs_warns (store : List (Nat × HVal)) (maxDepth : Nat) :
    ∀ fl (g : Nat → Nat) d q seen,
      (∀ i, g (i + 1) ∈ childRefs store (g i)) →
      (∀ x ∈ q, x.2 = d) → (∃ p, ((⟨p, g 0⟩ : HNode), d) ∈ q) →
      d ≤ maxDepth → maxDepth + 1 ≤ d + fl →
      1 ≤ (bfsLevels store maxDepth fl q seen).2.1 +
            (bfsLevels store maxDepth fl q seen).2.2 := by
  intro fl
  induction fl with
  | zero => intro g d q seen _ _ _ hdm hfl; omega
  | succ fl ih =>
    intro g d q seen hg hq hmem hdm hfl
    obtain ⟨p, hp⟩ := hmem
    obtain ⟨v, hv, hvp, hch⟩ := childRefs_elim store (g 0) (g 1) (hg 0)
    simp only [bfsLevels]
    rcases Nat.lt_or_ge d maxDepth with hdlt | hdge
    · rcases procLevel_step store maxDepth q seen ⟨p, g 0⟩ d v hp hdlt hv hvp with hc | hnext
      · omega
      · have hc1 : ∃ c ∈ childNodes p v, c.ref = g 1 := by
          have : g 1 ∈ (childNodes p v).map HNode.ref := by
            rw [childNodes_refs]
            exact hch
          obtain ⟨c, hcmem, hcr⟩ := List.mem_map.mp this
          exact ⟨c, hcmem, hcr⟩
        obtain ⟨c, hcmem, hcr⟩ := hc1
        have hrec := ih (fun i => g (i + 1)) (d + 1)
          (procLevel store maxDepth q seen).next (procLevel store maxDepth q seen).seen
          (fun i => hg (i + 1))
          (procLevel_next_depth store maxDepth q d seen hq)
          ⟨c.path, by
            have : (⟨c.path, g 1⟩ : HNode) = c := by
              cases c
              simp at hcr ⊢
              exact hcr.symm
            rw [this]
            exact hnext c hcmem⟩
          (by omega) (by omega)
        omega
    · have hdeq : maxDepth = d := le_antisymm hdge hdm
      have hdw := procLevel_depth_warn store maxDepth q seen ⟨p, g 0⟩ d hp
        (by omega) ⟨v, hv, hvp⟩
      omega

/-- C1 (amended).  For every root whose value lies on an infinite
reference chain (in particular, any container referring to one of its own
ancestor containers), the descendant traversal of `$..*` / `$..[*]`:
terminates — 34 BFS levels are already a fixpoint of the while-loop, so
any larger fuel computes the same result; emits at least one warning
(a cycle warning, or a depth warning when the cycle is reached at the
32-level cap); and visits each container as a traversal base at most once
(the collected references are pairwise distinct) — though the result
nodelist may still contain the cyclic container more than once, once per
alias path, as `descendant_cycle_counterexample` shows. -/
theorem descendant_cycle_corrected (store : List (Nat × HVal)) (root : HNode)
    (g : Nat → Nat) (hg0 : g 0 = root.ref)
    (hg : ∀ i, g (i + 1) ∈ childRefs store (g i)) :
    (∀ fl, 34 ≤ fl →
      bfsLevels store 32 fl [(root, 0)] [] = collectDesc store root) ∧
    1 ≤ (collectDesc store root).2.1 + (collectDesc store root).2.2 ∧
    ((collectDesc store root).1.map HNode.ref).Nodup := by
  refine ⟨?_, ?_, ?_⟩
  · intro fl hfl
    exact bfsLevels_fuel store 32 33 fl 34 [(root, 0)] [] (by omega) (by omega)
      (by intro x hx; simp at hx; rw [hx]) (by omega) (by omega)
  · refine bfs_warns store 32 34 g 0 [(root, 0)] [] hg ?_ ?_ (by omega) (by omega)
    · intro x hx
      simp at hx
      rw [hx]
    · refine ⟨root.path, ?_⟩
      rw [hg0]
      simp
  · exact (bfsLevels_nodup store 32 34 [(root, 0)] [] List.nodup_nil).1

/-- The amended C1 claim at S7's self-referential map `{"self": m}`:
the constant chain `0, 0, 0, …` witnesses the cycle, the traversal is
fuel-independent, warns, and collects no base twice. -/
theorem descendant_cycle_corrected_witness :
    ((fun _ => 0 : Nat → Nat) 0 = (⟨"$", 0⟩ : HNode).ref ∧
     (∀ i, (fun _ => 0 : Nat → Nat) (i + 1) ∈
        childRefs selfStore ((fun _ => 0 : Nat → Nat) i)) ∧
     (∀ fl, 34 ≤ fl →
       bfsLevels selfStore 32 fl [(⟨"$", 0⟩, 0)] [] =
         collectDesc selfStore ⟨"$", 0⟩) ∧
     1 ≤ (collectDesc selfStore ⟨"$", 0⟩).2.1 +
           (collectDesc selfStore ⟨"$", 0⟩).2.2 ∧
     ((collectDesc selfStore ⟨"$", 0⟩).1.map HNode.ref).Nodup) :=
  ⟨rfl, fun _ => show (0 : Nat) ∈ childRefs selfStore 0 by decide,
   descendant_cycle_corrected selfStore ⟨"$", 0⟩ (fun _ => 0) rfl
     (fun _ => show (0 : Nat) ∈ childRefs selfStore 0 by decide)⟩

end KillerBunny
